import Mathlib

/-!
go-seroost: tokenizer, index and TF-IDF ranking.

A shallow embedding of `lexer.go` and `model.go`, and of the statistics that
`serveAPIStats` of `server.go` reads from the model.

* A Go `[]rune` obtained from a string is a `List Char`; a Go `string` is a `String`.
* A Go `map[string]V` is a `GoMap V`: its entries in the order a `range` visits them,
  with pairwise distinct keys.  Go leaves that order unspecified, so statements about
  whole maps are made through `GoMap.get?`, never through the order of the entries.
* Go `int` is `Int`.  Every counter of the program counts tokens of one content slice
  or documents of one index, so an increment never reaches `2^63`.
* `time.Time` is the instant it denotes (`Int`, nanoseconds); `Before` is `<`.
* `float64` is `F64`: NaN, the two infinities, and finite values carried as exact
  rationals (rounding and the sign of zero are not modelled).
* What the program imports (the `unicode` predicates, `strings.ToLower`,
  the Porter stemmer, `math.Log10`, `sort.Slice`) is a parameter, `Env`.
* An unbounded `for` loop is a recursion on a bound computed from the lexer;
  the theorems show that the bound is never what ends the loop.
-/

namespace Seroost

/-! ## Go maps -/

/-- A Go `map[string]V`: the entries in enumeration order, no key twice. -/
structure GoMap (V : Type) where
  entries : List (String × V)
  nodup : (entries.map Prod.fst).Nodup

namespace GoMap

variable {V : Type}

/-- The map `make(map[string]V)`. -/
def empty : GoMap V := ⟨[], List.nodup_nil⟩

/-- The two-value read `v, ok := m[k]`. -/
def get? (m : GoMap V) (k : String) : Option V :=
  (m.entries.find? (fun e => e.1 == k)).map Prod.snd

/-- The key list a `range` visits. -/
def keys (m : GoMap V) : List String := m.entries.map Prod.fst

/-- The builtin `len(m)`. -/
def len (m : GoMap V) : Nat := m.entries.length

/-- The builtin `delete(m, k)`. -/
def delete (m : GoMap V) (k : String) : GoMap V :=
  ⟨m.entries.filter (fun e => e.1 != k),
    m.nodup.sublist (List.filter_sublist m.entries |>.map Prod.fst)⟩

/-- The assignment `m[k] = v`. -/
def set (m : GoMap V) (k : String) (v : V) : GoMap V :=
  ⟨(k, v) :: m.entries.filter (fun e => e.1 != k), by
    rw [List.map_cons, List.nodup_cons]
    refine ⟨?_, m.nodup.sublist (List.filter_sublist m.entries |>.map Prod.fst)⟩
    simp [List.mem_map, List.mem_filter]⟩

/-- The one-value read `m[k]` of an `int` map: the zero value when `k` is no key. -/
def get (m : GoMap Int) (k : String) : Int := (m.get? k).getD 0

end GoMap

/-! ## float64 -/

/-- A `float64`: NaN, plus or minus infinity, or a finite value. -/
inductive F64 where
  | nan : F64
  | inf (neg : Bool) : F64
  | fin (q : ℚ) : F64
  deriving DecidableEq

namespace F64

/-- The conversion `float64(n)`. -/
def ofInt (n : Int) : F64 := fin n

/-- The predicate `math.IsNaN`. -/
def isNaN : F64 → Bool
  | nan => true
  | _ => false

/-- The sum `x + y`: NaN absorbs, opposite infinities give NaN. -/
def add (x y : F64) : F64 :=
  match x with
  | nan => nan
  | inf a =>
    match y with
    | nan => nan
    | inf b => if a = b then inf a else nan
    | fin _ => inf a
  | fin p =>
    match y with
    | nan => nan
    | inf b => inf b
    | fin q => fin (p + q)

/-- The product `x * y`: NaN absorbs, zero times infinity is NaN. -/
def mul (x y : F64) : F64 :=
  match x with
  | nan => nan
  | inf a =>
    match y with
    | nan => nan
    | inf b => inf (a != b)
    | fin q => if q = 0 then nan else inf (a != decide (q < 0))
  | fin p =>
    match y with
    | nan => nan
    | inf b => if p = 0 then nan else inf (decide (p < 0) != b)
    | fin q => fin (p * q)

/-- The quotient `x / y`: NaN absorbs, `0/0` and `inf/inf` are NaN,
a nonzero value over zero is an infinity. -/
def div (x y : F64) : F64 :=
  match x with
  | nan => nan
  | inf a =>
    match y with
    | nan => nan
    | inf _ => nan
    | fin q => inf (a != decide (q < 0))
  | fin p =>
    match y with
    | nan => nan
    | inf _ => fin 0
    | fin q => if q = 0 then (if p = 0 then nan else inf (decide (p < 0))) else fin (p / q)

/-- The comparison `x > y`: false as soon as one side is NaN. -/
def gt (x y : F64) : Bool :=
  match x with
  | nan => false
  | inf a =>
    match y with
    | nan => false
    | inf b => !a && b
    | fin _ => !a
  | fin p =>
    match y with
    | nan => false
    | inf b => b
    | fin q => decide (q < p)

/-- The comparison `x == y`: false as soon as one side is NaN. -/
def beq (x y : F64) : Bool :=
  match x with
  | nan => false
  | inf a =>
    match y with
    | nan => false
    | inf b => a == b
    | fin _ => false
  | fin p =>
    match y with
    | nan => false
    | inf _ => false
    | fin q => decide (p = q)

end F64

/-! ## The index types (`model.go`) -/

abbrev TermFreq := GoMap Int
abbrev DocFreq := GoMap Int
abbrev Time := Int

structure Doc where
  TF : TermFreq
  Count : Int
  LastModified : Time

abbrev Docs := GoMap Doc

structure Model where
  Docs : Docs
  DF : DocFreq

structure SearchResult where
  Path : String
  Rank : F64

/-! ## Imported functions -/

/-- The functions the program imports from the Go library and from the stemmer
package.  Their code is not part of the repository; every definition below takes
them as a parameter. -/
structure Env where
  /-- The predicate `unicode.IsSpace`. -/
  IsSpace : Char → Bool
  /-- The predicate `unicode.IsDigit`. -/
  IsDigit : Char → Bool
  /-- The predicate `unicode.IsLetter`. -/
  IsLetter : Char → Bool
  /-- The function `strings.ToLower`. -/
  ToLower : String → String
  /-- The function `porterstemmer.StemString`. -/
  StemString : String → String
  /-- The function `math.Log10`. -/
  Log10 : F64 → F64
  /-- The call `sort.Slice(results, less)`, as the slice it leaves behind. -/
  SortSlice : (SearchResult → SearchResult → Bool) → List SearchResult → List SearchResult

/-! ## The lexer (`lexer.go`) -/

structure Lexer where
  content : List Char
  position : Nat

def NewLexer (content : List Char) : Lexer := { content := content, position := 0 }

/-- The loop shared by `trimLeft` and `chopWhile`:
`for l.position < len(l.content) && predicate(l.content[l.position]) { l.position++ }`.
The first argument bounds the number of iterations. -/
def advanceWhile (predicate : Char → Bool) (content : List Char) : Nat → Nat → Nat
  | 0, position => position
  | fuel + 1, position =>
    if h : position < content.length then
      if predicate content[position] then advanceWhile predicate content fuel (position + 1)
      else position
    else position

namespace Lexer

def trimLeft (E : Env) (l : Lexer) : Lexer :=
  { l with position := advanceWhile E.IsSpace l.content (l.content.length - l.position) l.position }

/-- The slice expression `content[lo:hi]`. -/
def slice (content : List Char) (lo hi : Nat) : List Char := (content.take hi).drop lo

/-- The method `chop`; the slice `content[position : position+n]` must be in range. -/
def chop (l : Lexer) (n : Nat) (_h : l.position + n ≤ l.content.length) : List Char × Lexer :=
  (slice l.content l.position (l.position + n), { l with position := l.position + n })

def chopWhile (predicate : Char → Bool) (l : Lexer) : List Char × Lexer :=
  let start := l.position
  let position := advanceWhile predicate l.content (l.content.length - l.position) l.position
  (slice l.content start position, { l with position := position })

/-- The method `NextToken`: the token, the `ok` flag, and the lexer afterwards. -/
def NextToken (E : Env) (l : Lexer) : (String × Bool) × Lexer :=
  let l := l.trimLeft E
  if h : l.position ≥ l.content.length then (("", false), l)
  else
    let c := l.content.get ⟨l.position, Nat.lt_of_not_ge h⟩
    if E.IsDigit c then
      let r := l.chopWhile E.IsDigit
      ((String.mk r.1, true), r.2)
    else if E.IsLetter c then
      let r := l.chopWhile (fun r => E.IsLetter r || E.IsDigit r)
      let term := E.ToLower (String.mk r.1)
      let stemmedTerm := E.StemString term
      ((stemmedTerm, true), r.2)
    else
      let r := l.chop 1 (Nat.succ_le_of_lt (Nat.lt_of_not_ge h))
      ((String.mk r.1, true), r.2)

end Lexer

/-! ## The index operations (`model.go`) -/

def NewModel : Model := { Docs := GoMap.empty, DF := GoMap.empty }

/-- The body of the loop of `RemoveDocument`:
`m.DF[term]--; if m.DF[term] == 0 { delete(m.DF, term) }`. -/
def RemoveDocument.step (df : DocFreq) (term : String) : DocFreq :=
  let df := df.set term (df.get term - 1)
  if df.get term = 0 then df.delete term else df

def RemoveDocument (m : Model) (filePath : String) : Model :=
  match m.Docs.get? filePath with
  | some doc =>
    { Docs := m.Docs.delete filePath
      DF := doc.TF.keys.foldl RemoveDocument.step m.DF }
  | none => m

/-- The method `RequiresReindexing`; the model is handed back as the call leaves it. -/
def RequiresReindexing (m : Model) (filePath : String) (lastModified : Time) : Bool × Model :=
  match m.Docs.get? filePath with
  | some doc => (decide (doc.LastModified < lastModified), m)
  | none => (true, m)

/-- The token loop of `AddDocument`:
`for { token, ok := lexer.NextToken(); if !ok { break }; tf[token]++; count++ }`.
The first argument bounds the number of `NextToken` calls. -/
def AddDocument.loop (E : Env) : Nat → Lexer → TermFreq → Int → TermFreq × Int
  | 0, _, tf, count => (tf, count)
  | fuel + 1, lexer, tf, count =>
    match lexer.NextToken E with
    | ((token, true), lexer) =>
      AddDocument.loop E fuel lexer (tf.set token (tf.get token + 1)) (count + 1)
    | ((_, false), _) => (tf, count)

/-- The body of the second loop of `AddDocument`: `m.DF[term]++`. -/
def AddDocument.step (df : DocFreq) (term : String) : DocFreq :=
  df.set term (df.get term + 1)

def AddDocument (E : Env) (m : Model) (filePath : String) (lastModified : Time)
    (content : List Char) : Model :=
  let m := RemoveDocument m filePath
  let r := AddDocument.loop E (content.length + 1) (NewLexer content) GoMap.empty 0
  let tf := r.1
  let count := r.2
  { Docs := m.Docs.set filePath { TF := tf, Count := count, LastModified := lastModified }
    DF := tf.keys.foldl AddDocument.step m.DF }

def computeTF (term : String) (doc : Doc) : F64 :=
  F64.div (F64.ofInt (doc.TF.get term)) (F64.ofInt doc.Count)

def computeIDF (E : Env) (term : String) (totalDocs : Int) (df : DocFreq) : F64 :=
  let docFreq := F64.ofInt (df.get term)
  let docFreq := if F64.beq docFreq (F64.ofInt 0) then F64.ofInt 1 else docFreq
  E.Log10 (F64.div (F64.ofInt totalDocs) docFreq)

/-- The token loop of `SearchQuery`, appending each token to `tokens`. -/
def SearchQuery.loop (E : Env) : Nat → Lexer → List String → List String
  | 0, _, tokens => tokens
  | fuel + 1, lexer, tokens =>
    match lexer.NextToken E with
    | ((token, true), lexer) => SearchQuery.loop E fuel lexer (tokens ++ [token])
    | ((_, false), _) => tokens

/-- The inner loop of `SearchQuery`: the rank of one document for the query tokens. -/
def SearchQuery.rank (E : Env) (m : Model) (tokens : List String) (doc : Doc) : F64 :=
  tokens.foldl
    (fun rank token =>
      F64.add rank (F64.mul (computeTF token doc) (computeIDF E token m.Docs.len m.DF)))
    (F64.ofInt 0)

/-- The outer loop of `SearchQuery`: one result per document whose rank is not NaN,
in the order the documents are visited. -/
def SearchQuery.collect (E : Env) (m : Model) (tokens : List String) : List SearchResult :=
  m.Docs.entries.filterMap (fun e =>
    let rank := SearchQuery.rank E m tokens e.2
    if !F64.isNaN rank then some { Path := e.1, Rank := rank } else none)

/-- The comparison handed to `sort.Slice`: `results[i].Rank > results[j].Rank`. -/
def SearchQuery.less (a b : SearchResult) : Bool := F64.gt a.Rank b.Rank

def SearchQuery (E : Env) (m : Model) (query : List Char) : List SearchResult :=
  let tokens := SearchQuery.loop E (query.length + 1) (NewLexer query) []
  let results := SearchQuery.collect E m tokens
  E.SortSlice SearchQuery.less results

/-- The states the index takes: `NewModel()` followed by any calls of
`AddDocument` and `RemoveDocument`. -/
inductive Reachable (E : Env) : Model → Prop
  | init : Reachable E NewModel
  | add (m : Model) (filePath : String) (lastModified : Time) (content : List Char) :
      Reachable E m → Reachable E (AddDocument E m filePath lastModified content)
  | remove (m : Model) (filePath : String) :
      Reachable E m → Reachable E (RemoveDocument m filePath)

/-! ## An environment to run examples in -/

/-- The predicate `unicode.IsSpace` on the ASCII range:
tab, line feed, vertical tab, form feed, carriage return, space. -/
def asciiIsSpace (c : Char) : Bool := c == ' ' || (9 ≤ c.toNat && c.toNat ≤ 13)

/-- The predicate `unicode.IsDigit` on the ASCII range: `0` to `9`. -/
def asciiIsDigit (c : Char) : Bool := 48 ≤ c.toNat && c.toNat ≤ 57

/-- The predicate `unicode.IsLetter` on the ASCII range: `A` to `Z` and `a` to `z`. -/
def asciiIsLetter (c : Char) : Bool :=
  (65 ≤ c.toNat && c.toNat ≤ 90) || (97 ≤ c.toNat && c.toNat ≤ 122)

/-- The function `strings.ToLower` on ASCII text. -/
def asciiToLower (s : String) : String := String.mk (s.data.map Char.toLower)

/-- A rational stand-in for `math.Log10` with its special values (NaN for NaN and for a
negative argument, minus infinity at 0, plus infinity at plus infinity), exact at 1 and
with the sign of the logarithm elsewhere: `2 (q - 1) / (q + 1)` approximates `ln q`,
and `4343 / 10000` approximates `1 / ln 10`. -/
def approxLog10 : F64 → F64
  | F64.nan => F64.nan
  | F64.inf true => F64.nan
  | F64.inf false => F64.inf false
  | F64.fin q =>
    if q < 0 then F64.nan
    else if q = 0 then F64.inf true
    else F64.fin (2 * (q - 1) / (q + 1) * (4343 / 10000))

/-- Insertion of one result into a slice sorted by `less`, behind its ties. -/
def insertSorted (less : SearchResult → SearchResult → Bool) (x : SearchResult) :
    List SearchResult → List SearchResult
  | [] => [x]
  | y :: ys => if less x y then x :: y :: ys else y :: insertSorted less x ys

/-- An insertion sort, one of the results `sort.Slice` may leave. -/
def insertionSort (less : SearchResult → SearchResult → Bool) (l : List SearchResult) :
    List SearchResult :=
  l.foldl (fun sorted x => insertSorted less x sorted) []

/-- The environment of the examples: ASCII character classes and lowercasing, the given
stemmer, `approxLog10` and `insertionSort`. -/
def asciiEnv (stem : String → String) : Env :=
  { IsSpace := asciiIsSpace
    IsDigit := asciiIsDigit
    IsLetter := asciiIsLetter
    ToLower := asciiToLower
    StemString := stem
    Log10 := approxLog10
    SortSlice := insertionSort }

/-! ## Notions the statements use -/

/-- The token sequence the lexer produces for `content`: the tokens of the successive
`NextToken` calls up to the first one that reports the end of input. -/
def Lexer.tokens (E : Env) (content : List Char) : List String :=
  SearchQuery.loop E (content.length + 1) (NewLexer content) []

/-- The sum of the values of the term-frequency map of a document. -/
def Doc.sumTF (d : Doc) : Int := (d.TF.entries.map Prod.snd).sum

/-- The number of stored documents whose term-frequency map holds `t` with a
positive count. -/
def Model.docsWith (m : Model) (t : String) : Nat :=
  m.Docs.entries.countP (fun e => decide (0 < e.2.TF.get t))

/-- Two maps with the same keys and the same values. -/
def GoMap.Same {V : Type} (a b : GoMap V) : Prop := ∀ k, a.get? k = b.get? k

/-- The term-frequency map and the counter agree: the values are positive and add up to
the counter. -/
def TFok (tf : TermFreq) (count : Int) : Prop :=
  (tf.entries.map Prod.snd).sum = count ∧ ∀ e ∈ tf.entries, 0 < e.2

/-- The invariant of the index: the document-frequency map holds, for each term, the
number of stored documents containing it, and no entry for a term no document contains;
in every stored document the term counts are positive and add up to `Count`. -/
def Inv (m : Model) : Prop :=
  (∀ t, m.DF.get? t = if m.docsWith t = 0 then none else some (m.docsWith t : Int)) ∧
  (∀ e ∈ m.Docs.entries, TFok e.2.TF e.2.Count)

/-- The state of the counterexample to C3: one document, `"a"`, stored at `"p"`. -/
def replacedState : Model := AddDocument (asciiEnv id) NewModel "p" 0 ['a']

/-- The body of the token loop of `AddDocument`, on the pair of the map and the counter. -/
def AddDocument.count (s : TermFreq × Int) (token : String) : TermFreq × Int :=
  (s.1.set token (s.1.get token + 1), s.2 + 1)

/-- One step of the tokenizer on the text still to read, as the rules are written:
skip the whitespace; at the end there is no token; a digit starts the maximal run of
digits; a letter starts the maximal run of letters and digits, lowercased and stemmed;
any other character is a token by itself.  The result is the token and the text that
follows it. -/
def Lexer.scan (E : Env) (rest : List Char) : Option (String × List Char) :=
  match rest.dropWhile E.IsSpace with
  | [] => none
  | c :: cs =>
    if E.IsDigit c then
      some (String.mk ((c :: cs).takeWhile E.IsDigit), (c :: cs).dropWhile E.IsDigit)
    else if E.IsLetter c then
      some (E.StemString (E.ToLower (String.mk
              ((c :: cs).takeWhile (fun r => E.IsLetter r || E.IsDigit r)))),
            (c :: cs).dropWhile (fun r => E.IsLetter r || E.IsDigit r))
    else some (String.mk [c], cs)

/-- What the statements on ranks assume of `math.Log10`: it is 0 at 1 and a positive
finite value at every finite argument above 1. -/
def Env.LogSign (E : Env) : Prop :=
  E.Log10 (F64.fin 1) = F64.fin 0 ∧
  ∀ q : ℚ, 1 < q → ∃ y : ℚ, 0 < y ∧ E.Log10 (F64.fin q) = F64.fin y

/-- What the statements on results assume of `sort.Slice`: on results without a NaN rank
it leaves a permutation of the slice in which no entry has a rank greater than an entry
before it. -/
def Env.SortsByRank (E : Env) : Prop :=
  ∀ l : List SearchResult, (∀ r ∈ l, r.Rank.isNaN = false) →
    (E.SortSlice SearchQuery.less l).Perm l ∧
    (E.SortSlice SearchQuery.less l).Pairwise (fun a b => F64.gt b.Rank a.Rank = false)

/-- The state of the counterexample to C10: one document, added with empty content. -/
def emptyDocState : Model := AddDocument (asciiEnv id) NewModel "e" 0 []

/-- The method `AddDocument`, given the token sequence of the content. -/
def AddDocument.ofTokens (m : Model) (filePath : String) (lastModified : Time)
    (tokens : List String) : Model :=
  let m := RemoveDocument m filePath
  let r := tokens.foldl AddDocument.count (GoMap.empty, 0)
  { Docs := m.Docs.set filePath { TF := r.1, Count := r.2, LastModified := lastModified }
    DF := r.1.keys.foldl AddDocument.step m.DF }

/-- The comparison `x >= y`: false as soon as one side is NaN. -/
def F64.ge (x y : F64) : Bool :=
  match x with
  | F64.nan => false
  | F64.inf a =>
    match y with
    | F64.nan => false
    | F64.inf b => !a || b
    | F64.fin _ => !a
  | F64.fin p =>
    match y with
    | F64.nan => false
    | F64.inf b => b
    | F64.fin q => decide (q ≤ p)

/-- The same map, visited by `range` in the opposite order. -/
def GoMap.reverse {V : Type} (m : GoMap V) : GoMap V :=
  ⟨m.entries.reverse, by rw [List.map_reverse, List.nodup_reverse]; exact m.nodup⟩

/-- Two documents, `"cat"` at `"A"` and `"dog"` at `"B"`. -/
def twoDocState : Model :=
  AddDocument (asciiEnv id) (AddDocument (asciiEnv id) NewModel "A" 1 ['c', 'a', 't'])
    "B" 2 ['d', 'o', 'g']

/-- The index `twoDocState` with its documents visited in the opposite order. -/
def twoDocStateReversed : Model :=
  { Docs := twoDocState.Docs.reverse, DF := twoDocState.DF }

/-- The body of the response of `serveAPIStats`. -/
structure Stats where
  DocsCount : Int
  TermsCount : Int

/-- The statistics `serveAPIStats` reads under the lock: `len(model.Docs)` and
`len(model.DF)`. -/
def serveAPIStats (m : Model) : Stats :=
  { DocsCount := m.Docs.len, TermsCount := m.DF.len }

/-- The distinct terms that occur in at least one stored document. -/
def Model.terms (m : Model) : List String :=
  (m.Docs.entries.flatMap (fun e => e.2.TF.keys)).dedup

/-- The tokens the rules of the tokenizer give for the text `rest`, one `Lexer.scan` step
after the other; the first argument bounds the number of steps. -/
def Lexer.scanAll (E : Env) : Nat → List Char → List String
  | 0, _ => []
  | fuel + 1, rest =>
    match Lexer.scan E rest with
    | none => []
    | some (token, after) => token :: Lexer.scanAll E fuel after

/-- The terms of the index: a run of digits, the stem of a lowercased word (a run of
letters and digits that starts with a letter), or a single character that is neither
whitespace nor a digit nor a letter. -/
inductive Lexer.Term (E : Env) : String → Prop
  | digits (d : Char) (ds : List Char) :
      E.IsSpace d = false → (∀ c ∈ d :: ds, E.IsDigit c = true) →
      Lexer.Term E (String.mk (d :: ds))
  | word (c : Char) (cs : List Char) :
      E.IsSpace c = false → E.IsDigit c = false → E.IsLetter c = true →
      (∀ x ∈ c :: cs, (E.IsLetter x || E.IsDigit x) = true) →
      Lexer.Term E (E.StemString (E.ToLower (String.mk (c :: cs))))
  | symbol (c : Char) :
      E.IsSpace c = false → E.IsDigit c = false → E.IsLetter c = false →
      Lexer.Term E (String.mk [c])

/-- A stemmer with the values of the Porter algorithm on `agreed` (steps 1b and 5a give
`agre`) and on `agre` (step 5a gives `agr`); it leaves every other word as it is. -/
def porterAgreed (s : String) : String :=
  if s = "agreed" then "agre" else if s = "agre" then "agr" else s

/-! ## Lemmas on Go maps -/

namespace GoMap
variable {V : Type}

theorem find?_filter_ne (l : List (String × V)) (k k' : String) (h : k' ≠ k) :
    (l.filter (fun e => e.1 != k)).find? (fun e => e.1 == k') = l.find? (fun e => e.1 == k') := by
  induction l with
  | nil => rfl
  | cons e l ih =>
    by_cases hk : e.1 = k
    · have h1 : (e.1 != k) = false := by simp [hk]
      have h2 : (e.1 == k') = false := by
        simp only [beq_eq_false_iff_ne]; intro h'; exact h (h' ▸ hk)
      rw [List.filter_cons, h1, List.find?_cons, h2]; simpa using ih
    · have h1 : (e.1 != k) = true := by simp [hk]
      rw [List.filter_cons, h1, if_pos rfl, List.find?_cons, List.find?_cons, ih]

theorem find?_filter_self (l : List (String × V)) (k : String) :
    (l.filter (fun e => e.1 != k)).find? (fun e => e.1 == k) = none := by
  simp [List.find?_eq_none, List.mem_filter]

@[simp] theorem get?_empty (k : String) : (empty : GoMap V).get? k = none := rfl

@[simp] theorem get?_set_self (m : GoMap V) (k : String) (v : V) : (m.set k v).get? k = some v := by
  simp [get?, set]

theorem get?_set_ne (m : GoMap V) (k k' : String) (v : V) (h : k' ≠ k) :
    (m.set k v).get? k' = m.get? k' := by
  have h' : ¬ k = k' := fun e => h e.symm
  simp [get?, set, List.find?_cons, h', find?_filter_ne _ _ _ h]

@[simp] theorem get?_delete_self (m : GoMap V) (k : String) : (m.delete k).get? k = none := by
  simp [get?, delete, find?_filter_self]

theorem get?_delete_ne (m : GoMap V) (k k' : String) (h : k' ≠ k) :
    (m.delete k).get? k' = m.get? k' := by
  simp [get?, delete, find?_filter_ne _ _ _ h]

theorem get?_set (m : GoMap V) (k k' : String) (v : V) :
    (m.set k v).get? k' = if k' = k then some v else m.get? k' := by
  by_cases h : k' = k
  · subst h; simp
  · simp [h, get?_set_ne _ _ _ _ h]

theorem get?_delete (m : GoMap V) (k k' : String) :
    (m.delete k).get? k' = if k' = k then none else m.get? k' := by
  by_cases h : k' = k
  · subst h; simp
  · simp [h, get?_delete_ne _ _ _ h]

theorem get?_eq_none_iff (m : GoMap V) (k : String) : m.get? k = none ↔ k ∉ m.keys := by
  simp only [get?, keys, Option.map_eq_none', List.find?_eq_none, List.mem_map]
  constructor
  · rintro h ⟨e, he, rfl⟩
    exact h e he (by simp)
  · intro h e he hk
    exact h ⟨e, he, by simpa using hk⟩

theorem get?_eq_some_iff (m : GoMap V) (k : String) (v : V) :
    m.get? k = some v ↔ (k, v) ∈ m.entries := by
  obtain ⟨l, nd⟩ := m
  simp only [get?]
  induction l with
  | nil => simp
  | cons e l ih =>
    rw [List.map_cons, List.nodup_cons] at nd
    by_cases hk : e.1 = k
    · subst hk
      simp only [List.find?_cons, beq_self_eq_true, Option.map_some', Option.some.injEq, List.mem_cons]
      constructor
      · intro h; left; rw [← h]
      · rintro (h | h)
        · rw [← h]
        · exact absurd (List.mem_map_of_mem Prod.fst h) nd.1
    · have : (e.1 == k) = false := by simpa using hk
      simp only [List.find?_cons, this, List.mem_cons]
      rw [ih nd.2]
      constructor
      · intro h; right; exact h
      · rintro (h | h)
        · exact absurd (by rw [← h]) hk
        · exact h

theorem mem_keys_iff (m : GoMap V) (k : String) : k ∈ m.keys ↔ ∃ v, m.get? k = some v := by
  constructor
  · intro h
    cases hg : m.get? k with
    | none => exact absurd h ((get?_eq_none_iff m k).1 hg)
    | some v => exact ⟨v, rfl⟩
  · rintro ⟨v, hv⟩
    by_contra hc
    rw [(get?_eq_none_iff m k).2 hc] at hv
    cases hv

end GoMap

/-! ## The two document-frequency loops -/

theorem GoMap.get_eq (m : GoMap Int) (k : String) : m.get k = (m.get? k).getD 0 := rfl

theorem RemoveDocument.rm_step_get? (df : DocFreq) (term t : String) :
    (RemoveDocument.step df term).get? t =
      if t = term then (if df.get term - 1 = 0 then none else some (df.get term - 1))
      else df.get? t := by
  unfold RemoveDocument.step
  simp only [GoMap.get_eq, GoMap.get?_set_self, Option.getD_some]
  by_cases h0 : (df.get? term).getD 0 - 1 = 0
  · simp only [h0, if_true, GoMap.get?_delete, GoMap.get?_set]
    by_cases h : t = term <;> simp [h]
  · simp only [h0, if_false, GoMap.get?_set]

theorem AddDocument.add_step_get? (df : DocFreq) (term t : String) :
    (AddDocument.step df term).get? t =
      if t = term then some (df.get term + 1) else df.get? t := by
  unfold AddDocument.step
  rw [GoMap.get?_set]

theorem RemoveDocument.rm_fold_get? (keys : List String) (nd : keys.Nodup) (df : DocFreq)
    (t : String) :
    (keys.foldl RemoveDocument.step df).get? t =
      if t ∈ keys then (if df.get t - 1 = 0 then none else some (df.get t - 1))
      else df.get? t := by
  induction keys generalizing df with
  | nil => simp
  | cons k ks ih =>
    rw [List.nodup_cons] at nd
    rw [List.foldl_cons, ih nd.2]
    by_cases ht : t ∈ ks
    · have hne : t ≠ k := fun h => nd.1 (h ▸ ht)
      simp only [ht, List.mem_cons, or_true, if_true, GoMap.get_eq,
        RemoveDocument.rm_step_get?, hne, if_false]
    · by_cases hk : t = k
      · subst hk
        simp [ht, RemoveDocument.rm_step_get?]
      · simp [ht, hk, RemoveDocument.rm_step_get?]

theorem AddDocument.add_fold_get? (keys : List String) (nd : keys.Nodup) (df : DocFreq)
    (t : String) :
    (keys.foldl AddDocument.step df).get? t =
      if t ∈ keys then some (df.get t + 1) else df.get? t := by
  induction keys generalizing df with
  | nil => simp
  | cons k ks ih =>
    rw [List.nodup_cons] at nd
    rw [List.foldl_cons, ih nd.2]
    by_cases ht : t ∈ ks
    · have hne : t ≠ k := fun h => nd.1 (h ▸ ht)
      simp only [ht, List.mem_cons, or_true, if_true, GoMap.get_eq,
        AddDocument.add_step_get?, hne, if_false]
    · by_cases hk : t = k
      · subst hk
        simp [ht, AddDocument.add_step_get?]
      · simp [ht, hk, AddDocument.add_step_get?]

/-! ## Term frequencies and the token counter -/

theorem GoMap.sum_split (l : List (String × Int)) (nd : (l.map Prod.fst).Nodup) (k : String) :
    (l.map Prod.snd).sum =
      ((l.find? (fun e => e.1 == k)).map Prod.snd).getD 0
        + ((l.filter (fun e => e.1 != k)).map Prod.snd).sum := by
  induction l with
  | nil => simp
  | cons e l ih =>
    rw [List.map_cons, List.nodup_cons] at nd
    by_cases hk : e.1 = k
    · have h1 : (e.1 == k) = true := by simp [hk]
      have h2 : (e.1 != k) = false := by simp [hk]
      have hnot : k ∉ l.map Prod.fst := hk ▸ nd.1
      have hfil : l.filter (fun e => e.1 != k) = l := by
        rw [List.filter_eq_self]
        intro a ha
        simp only [bne_iff_ne, ne_eq]
        intro h
        exact hnot (h ▸ List.mem_map_of_mem Prod.fst ha)
      rw [List.find?_cons, h1, List.filter_cons, h2]
      simp [hfil]
    · have h1 : (e.1 == k) = false := by simp [hk]
      have h2 : (e.1 != k) = true := by simp [hk]
      rw [List.find?_cons, h1, List.filter_cons, h2, if_pos rfl]
      simp only [List.map_cons, List.sum_cons]
      rw [ih nd.2]; ring

theorem TFok.get_nonneg {tf : TermFreq} {count : Int} (h : TFok tf count) (k : String) :
    0 ≤ tf.get k := by
  rw [GoMap.get_eq]
  cases hg : tf.get? k with
  | none => simp
  | some v =>
    have := h.2 _ ((GoMap.get?_eq_some_iff tf k v).1 hg)
    simpa using this.le

theorem TFok.set {tf : TermFreq} {count : Int} (h : TFok tf count) (token : String) :
    TFok (tf.set token (tf.get token + 1)) (count + 1) := by
  constructor
  · have hs := GoMap.sum_split tf.entries tf.nodup token
    simp only [GoMap.set, List.map_cons, List.sum_cons]
    rw [← h.1, hs]
    simp only [GoMap.get_eq, GoMap.get?]
    ring
  · intro e he
    simp only [GoMap.set, List.mem_cons, List.mem_filter] at he
    rcases he with rfl | ⟨he, _⟩
    · have := h.get_nonneg token
      show 0 < tf.get token + 1
      omega
    · exact h.2 e he

theorem AddDocument.loop_ok (E : Env) (fuel : Nat) (lexer : Lexer) (tf : TermFreq)
    (count : Int) (h : TFok tf count) :
    TFok (AddDocument.loop E fuel lexer tf count).1 (AddDocument.loop E fuel lexer tf count).2 := by
  induction fuel generalizing lexer tf count with
  | zero => exact h
  | succ n ih =>
    unfold AddDocument.loop
    rcases hn : lexer.NextToken E with ⟨⟨token, ok⟩, lexer'⟩
    cases ok
    · exact h
    · exact ih lexer' _ _ (h.set token)

/-! ## The invariant of the index -/

theorem TFok.pos_iff {tf : TermFreq} {count : Int} (h : TFok tf count) (k : String) :
    0 < tf.get k ↔ k ∈ tf.keys := by
  rw [GoMap.get_eq, GoMap.mem_keys_iff]
  cases hg : tf.get? k with
  | none => simp
  | some v =>
    have := h.2 _ ((GoMap.get?_eq_some_iff tf k v).1 hg)
    simpa using this

theorem GoMap.countP_split {V : Type} (l : List (String × V)) (nd : (l.map Prod.fst).Nodup)
    (f : String × V → Bool) (p : String) :
    l.countP f =
      (l.filter (fun e => e.1 != p)).countP f
        + (match l.find? (fun e => e.1 == p) with
            | some e => if f e then 1 else 0
            | none => 0) := by
  induction l with
  | nil => simp
  | cons e l ih =>
    rw [List.map_cons, List.nodup_cons] at nd
    by_cases hk : e.1 = p
    · have h1 : (e.1 == p) = true := by simp [hk]
      have h2 : (e.1 != p) = false := by simp [hk]
      have hnot : p ∉ l.map Prod.fst := hk ▸ nd.1
      have hfil : l.filter (fun e => e.1 != p) = l := by
        rw [List.filter_eq_self]
        intro a ha
        simp only [bne_iff_ne, ne_eq]
        intro h
        exact hnot (h ▸ List.mem_map_of_mem Prod.fst ha)
      rw [List.find?_cons, h1, List.filter_cons, h2, List.countP_cons]
      simp [hfil]
    · have h1 : (e.1 == p) = false := by simp [hk]
      have h2 : (e.1 != p) = true := by simp [hk]
      rw [List.find?_cons, h1, List.filter_cons, h2, if_pos rfl, List.countP_cons,
        List.countP_cons, ih nd.2]
      simp only []
      omega

theorem Model.docsWith_delete (m : Model) (p : String) (t : String) :
    m.docsWith t =
      Model.docsWith { m with Docs := m.Docs.delete p } t
        + (match m.Docs.get? p with
            | some d => if 0 < d.TF.get t then 1 else 0
            | none => 0) := by
  unfold Model.docsWith
  rw [GoMap.countP_split m.Docs.entries m.Docs.nodup _ p]
  simp only [GoMap.delete, GoMap.get?]
  cases m.Docs.entries.find? (fun e => e.1 == p) with
  | none => simp
  | some e => simp

theorem RemoveDocument.docs_self (m : Model) (p : String) :
    (RemoveDocument m p).Docs.get? p = none := by
  unfold RemoveDocument
  cases h : m.Docs.get? p with
  | none => simpa using h
  | some d => simp

theorem RemoveDocument.docs_ne (m : Model) (p p' : String) (h : p' ≠ p) :
    (RemoveDocument m p).Docs.get? p' = m.Docs.get? p' := by
  unfold RemoveDocument
  cases m.Docs.get? p with
  | none => rfl
  | some d => simp [GoMap.get?_delete_ne _ _ _ h]

theorem Inv.remove {m : Model} (h : Inv m) (p : String) : Inv (RemoveDocument m p) := by
  unfold RemoveDocument
  cases hp : m.Docs.get? p with
  | none => exact h
  | some d =>
    have hd : TFok d.TF d.Count := h.2 (p, d) ((GoMap.get?_eq_some_iff _ _ _).1 hp)
    constructor
    · intro t
      have hsplit := Model.docsWith_delete m p t
      rw [hp] at hsplit
      simp only []
      rw [RemoveDocument.rm_fold_get? d.TF.keys d.TF.nodup, GoMap.get_eq, h.1 t]
      have hmod : Model.docsWith { Docs := m.Docs.delete p, DF := List.foldl RemoveDocument.step m.DF d.TF.keys } t
          = Model.docsWith { m with Docs := m.Docs.delete p } t := rfl
      rw [hmod]
      by_cases ht : t ∈ d.TF.keys
      · have hpos : 0 < d.TF.get t := (hd.pos_iff t).2 ht
        simp only [hpos, if_true] at hsplit
        simp only [ht, if_true, hsplit]
        by_cases h0 : Model.docsWith { m with Docs := m.Docs.delete p } t = 0
        · simp [h0]
        · simp [h0]
      · have hpos : ¬ 0 < d.TF.get t := fun hc => ht ((hd.pos_iff t).1 hc)
        simp only [hpos, if_false, Nat.add_zero] at hsplit
        simp only [ht, if_false, hsplit]
    · intro e he
      simp only [GoMap.delete, List.mem_filter] at he
      exact h.2 e he.1

theorem TFok.empty : TFok GoMap.empty 0 := by
  constructor
  · rfl
  · intro e he; cases he

theorem Model.docsWith_set (m : Model) (p : String) (d : Doc) (df : DocFreq) (t : String)
    (hp : m.Docs.get? p = none) :
    Model.docsWith { Docs := m.Docs.set p d, DF := df } t
      = m.docsWith t + (if 0 < d.TF.get t then 1 else 0) := by
  have hsplit := Model.docsWith_delete m p t
  rw [hp] at hsplit
  simp only [Nat.add_zero] at hsplit
  rw [hsplit]
  unfold Model.docsWith
  simp only [GoMap.set, GoMap.delete, List.countP_cons]
  by_cases h : 0 < d.TF.get t <;> simp [h]

theorem Inv.add (E : Env) {m : Model} (h : Inv m) (p : String) (ts : Time)
    (content : List Char) : Inv (AddDocument E m p ts content) := by
  have h1 : Inv (RemoveDocument m p) := h.remove p
  have hp : (RemoveDocument m p).Docs.get? p = none := RemoveDocument.docs_self m p
  have hok := AddDocument.loop_ok E (content.length + 1) (NewLexer content) GoMap.empty 0
    TFok.empty
  unfold AddDocument
  simp only []
  generalize AddDocument.loop E (content.length + 1) (NewLexer content) GoMap.empty 0 = r at hok ⊢
  generalize RemoveDocument m p = m1 at h1 hp ⊢
  constructor
  · intro t
    rw [Model.docsWith_set m1 p _ _ t hp, AddDocument.add_fold_get? r.1.keys r.1.nodup,
      GoMap.get_eq, h1.1 t]
    simp only []
    by_cases ht : t ∈ r.1.keys
    · have hpos : 0 < r.1.get t := (hok.pos_iff t).2 ht
      simp only [ht, hpos, if_true]
      by_cases h0 : m1.docsWith t = 0
      · simp [h0]
      · simp [h0]
    · have hpos : ¬ 0 < r.1.get t := fun hc => ht ((hok.pos_iff t).1 hc)
      simp only [ht, hpos, if_false, Nat.add_zero]
  · intro e he
    simp only [GoMap.set, List.mem_cons, List.mem_filter] at he
    rcases he with rfl | ⟨he, _⟩
    · exact hok
    · exact h1.2 e he

theorem Inv.init : Inv NewModel := by
  constructor
  · intro t; rfl
  · intro e he; cases he

theorem Reachable.inv {E : Env} {m : Model} (h : Reachable E m) : Inv m := by
  induction h with
  | init => exact Inv.init
  | add m p ts c _ ih => exact ih.add E p ts c
  | remove m p _ ih => exact ih.remove p

/-- C1. Document-frequency consistency: in every state reached from `NewModel()` by
`AddDocument` and `RemoveDocument` calls, the document frequency `DF[t]` of every term
`t` (0 when `t` is no key) is the number of stored documents whose term-frequency map
holds `t` with a positive count. -/
theorem df_counts_documents (E : Env) (m : Model) (h : Reachable E m) (t : String) :
    m.DF.get t = (m.docsWith t : Int) := by
  rw [GoMap.get_eq, h.inv.1 t]
  by_cases h0 : m.docsWith t = 0 <;> simp [h0]

/-- C2. Count consistency: in every state reached from `NewModel()` by `AddDocument` and
`RemoveDocument` calls, every stored document has `Count` equal to the sum of the values
of its term-frequency map, and every one of those values is strictly positive. -/
theorem count_is_sum_of_tf (E : Env) (m : Model) (h : Reachable E m) (p : String) (d : Doc)
    (hd : m.Docs.get? p = some d) :
    d.sumTF = d.Count ∧ ∀ t v, d.TF.get? t = some v → 0 < v := by
  have hok := h.inv.2 (p, d) ((GoMap.get?_eq_some_iff _ _ _).1 hd)
  refine ⟨hok.1, fun t v hv => ?_⟩
  exact hok.2 (t, v) ((GoMap.get?_eq_some_iff _ _ _).1 hv)

/-- C1, at two documents sharing a term. -/
theorem df_counts_documents_witness :
    (AddDocument (asciiEnv id) (AddDocument (asciiEnv id) NewModel "A" 0 "the cat".toList)
      "B" 1 "the dog".toList).DF.get "the" = 2 :=
  df_counts_documents (asciiEnv id) _ (Reachable.add _ _ _ _ (Reachable.add _ _ _ _ Reachable.init)) "the"

/-- C2, at the document stored for `"a b a"`. -/
theorem count_is_sum_of_tf_witness :
    Doc.sumTF { TF := (GoMap.empty.set "b" 1).set "a" 2, Count := 3, LastModified := 7 } = 3 ∧
      ∀ t v, ((GoMap.empty.set "b" 1).set "a" 2 : TermFreq).get? t = some v → 0 < v :=
  count_is_sum_of_tf (asciiEnv id)
    (AddDocument (asciiEnv id) NewModel "p" 7 ['a', ' ', 'b', ' ', 'a'])
    (Reachable.add _ _ _ _ Reachable.init) "p"
    { TF := (GoMap.empty.set "b" 1).set "a" 2, Count := 3, LastModified := 7 } rfl

/-! ## Adding and removing a document -/

theorem AddDocument.docs_get? (E : Env) (m : Model) (p : String) (ts : Time)
    (content : List Char) (k : String) :
    (AddDocument E m p ts content).Docs.get? k =
      if k = p then
        some { TF := (AddDocument.loop E (content.length + 1) (NewLexer content) GoMap.empty 0).1
               Count := (AddDocument.loop E (content.length + 1) (NewLexer content) GoMap.empty 0).2
               LastModified := ts }
      else m.Docs.get? k := by
  unfold AddDocument
  simp only [GoMap.get?_set]
  by_cases h : k = p
  · simp [h]
  · simp [h, RemoveDocument.docs_ne m p k h]

theorem AddDocument.df_get? (E : Env) (m : Model) (p : String) (ts : Time)
    (content : List Char) (t : String) :
    (AddDocument E m p ts content).DF.get? t =
      if t ∈ (AddDocument.loop E (content.length + 1) (NewLexer content) GoMap.empty 0).1.keys
      then some ((RemoveDocument m p).DF.get t + 1)
      else (RemoveDocument m p).DF.get? t := by
  unfold AddDocument
  simp only []
  exact AddDocument.add_fold_get? _ (GoMap.nodup _) _ _

theorem RemoveDocument.df_of_stored (m : Model) (p : String) (d : Doc)
    (h : m.Docs.get? p = some d) (t : String) :
    (RemoveDocument m p).DF.get? t =
      if t ∈ d.TF.keys then (if m.DF.get t - 1 = 0 then none else some (m.DF.get t - 1))
      else m.DF.get? t := by
  unfold RemoveDocument
  rw [h]
  simp only []
  exact RemoveDocument.rm_fold_get? _ d.TF.nodup _ _

theorem RemoveDocument.of_absent (m : Model) (p : String) (h : m.Docs.get? p = none) :
    RemoveDocument m p = m := by
  unfold RemoveDocument
  rw [h]

/-- Removing what was just added gives back the document frequencies the addition started
from, those left once the earlier document at the path was removed. -/
theorem RemoveDocument.after_add (E : Env) (m : Model) (p : String) (ts : Time)
    (content : List Char) (hz : ∀ k, (RemoveDocument m p).DF.get? k ≠ some 0) :
    (RemoveDocument (AddDocument E m p ts content) p).DF.Same (RemoveDocument m p).DF := by
  intro t
  have hstored := AddDocument.docs_get? E m p ts content p
  rw [if_pos rfl] at hstored
  rw [RemoveDocument.df_of_stored _ p _ hstored t]
  simp only [GoMap.get_eq, AddDocument.df_get?]
  by_cases ht : t ∈ (AddDocument.loop E (content.length + 1) (NewLexer content) GoMap.empty 0).1.keys
  · simp only [ht, if_true, Option.getD_some, add_sub_cancel_right]
    cases hg : (RemoveDocument m p).DF.get? t with
    | none => simp
    | some v =>
      have : v ≠ 0 := fun h0 => hz t (by rw [hg, h0])
      simp [this]
  · simp only [ht, if_false]

theorem Inv.no_zero {m : Model} (h : Inv m) (k : String) : m.DF.get? k ≠ some 0 := by
  rw [h.1 k]
  by_cases h0 : m.docsWith k = 0
  · simp [h0]
  · simp [h0]

/-- C3 fails where a document is already stored at the path: with `"a"` stored at `"p"`,
adding `"b"` at `"p"` and removing `"p"` leaves no entry for `a`, which had the entry 1. -/
theorem add_remove_not_inverse_on_stored_path :
    ¬ (RemoveDocument (AddDocument (asciiEnv id) replacedState "p" 1 ['b']) "p").DF.Same
        replacedState.DF := by
  intro h
  have := h "a"
  revert this
  decide

/-- C3, amended. In every state whose document-frequency map has no zero-valued entry and
in which no document is stored at `p`, `AddDocument(p, t, c)` followed by
`RemoveDocument(p)` gives back the document-frequency map: same keys, same values. -/
theorem add_remove_restores_df (E : Env) (m : Model) (p : String) (ts : Time)
    (content : List Char) (hp : m.Docs.get? p = none) (hz : ∀ k, m.DF.get? k ≠ some 0) :
    (RemoveDocument (AddDocument E m p ts content) p).DF.Same m.DF := by
  have h := RemoveDocument.after_add E m p ts content
  rw [RemoveDocument.of_absent m p hp] at h
  exact h hz

/-- C3 amended, at a path that is not stored. -/
theorem add_remove_restores_df_witness :
    (RemoveDocument (AddDocument (asciiEnv id) replacedState "q" 1 ['a', ' ', 'b']) "q").DF.Same
      replacedState.DF :=
  add_remove_restores_df (asciiEnv id) replacedState "q" 1 ['a', ' ', 'b'] rfl
    (Reachable.inv (Reachable.add _ _ _ _ Reachable.init)).no_zero

/-! ## The stored document -/

theorem SearchQuery.loop_append (E : Env) (fuel : Nat) (lexer : Lexer) (tokens : List String) :
    SearchQuery.loop E fuel lexer tokens = tokens ++ SearchQuery.loop E fuel lexer [] := by
  induction fuel generalizing lexer tokens with
  | zero => simp [SearchQuery.loop]
  | succ n ih =>
    unfold SearchQuery.loop
    rcases hn : lexer.NextToken E with ⟨⟨token, ok⟩, lexer'⟩
    cases ok
    · simp
    · simp only []
      rw [ih lexer' (tokens ++ [token]), ih lexer' ([] ++ [token])]
      simp

theorem AddDocument.loop_eq_foldl (E : Env) (fuel : Nat) (lexer : Lexer) (tf : TermFreq)
    (count : Int) :
    AddDocument.loop E fuel lexer tf count =
      (SearchQuery.loop E fuel lexer []).foldl AddDocument.count (tf, count) := by
  induction fuel generalizing lexer tf count with
  | zero => rfl
  | succ n ih =>
    unfold AddDocument.loop SearchQuery.loop
    rcases hn : lexer.NextToken E with ⟨⟨token, ok⟩, lexer'⟩
    cases ok
    · rfl
    · simp only []
      rw [SearchQuery.loop_append, ih]
      simp [AddDocument.count]

theorem AddDocument.count_foldl (tokens : List String) (tf : TermFreq) (count : Int) :
    (tokens.foldl AddDocument.count (tf, count)).2 = count + tokens.length ∧
    ∀ x, (tokens.foldl AddDocument.count (tf, count)).1.get? x =
      if tokens.count x = 0 then tf.get? x else some (tf.get x + (tokens.count x : Int)) := by
  induction tokens generalizing tf count with
  | nil => simp
  | cons tok toks ih =>
    rw [List.foldl_cons]
    have h := ih (tf.set tok (tf.get tok + 1)) (count + 1)
    simp only [AddDocument.count]
    refine ⟨by rw [h.1]; simp; ring, fun x => ?_⟩
    rw [h.2 x]
    by_cases hx : tok = x
    · subst hx
      simp only [GoMap.get_eq, GoMap.get?_set_self, List.count_cons_self, Option.getD_some]
      by_cases h0 : toks.count tok = 0
      · simp [h0]
      · simp only [h0, if_false, Nat.succ_ne_zero, Nat.cast_add, Nat.cast_one]
        congr 1; ring
    · have hx' : x ≠ tok := fun h => hx h.symm
      have hb : (tok == x) = false := by simpa using hx
      simp only [GoMap.get_eq, GoMap.get?_set_ne _ _ _ _ hx', List.count_cons, hb]
      simp

theorem AddDocument.loop_tokens (E : Env) (content : List Char) :
    (AddDocument.loop E (content.length + 1) (NewLexer content) GoMap.empty 0).2
        = ((Lexer.tokens E content).length : Int) ∧
    ∀ x, (AddDocument.loop E (content.length + 1) (NewLexer content) GoMap.empty 0).1.get? x =
      if (Lexer.tokens E content).count x = 0 then none
      else some (((Lexer.tokens E content).count x : Nat) : Int) := by
  rw [AddDocument.loop_eq_foldl]
  have h := AddDocument.count_foldl (Lexer.tokens E content) GoMap.empty 0
  unfold Lexer.tokens at h ⊢
  refine ⟨by rw [h.1]; simp, fun x => ?_⟩
  rw [h.2 x]
  simp [GoMap.get_eq]

/-- C5. `AddDocument(p, t, c)` stores at `p` a document with `LastModified = t`, with
`Count` the number of tokens the lexer produces for `c`, and with `TF[x]` the number of
occurrences of `x` among those tokens (no entry when there is none); the documents at
every other path are unchanged; empty content gives a document with `Count` 0 and an
empty term-frequency map. -/
theorem add_document_stores (E : Env) (m : Model) (p : String) (ts : Time)
    (content : List Char) :
    (∃ d, (AddDocument E m p ts content).Docs.get? p = some d ∧
      d.LastModified = ts ∧
      d.Count = ((Lexer.tokens E content).length : Int) ∧
      ∀ x, d.TF.get? x =
        if (Lexer.tokens E content).count x = 0 then none
        else some (((Lexer.tokens E content).count x : Nat) : Int)) ∧
    (∀ q, q ≠ p → (AddDocument E m p ts content).Docs.get? q = m.Docs.get? q) ∧
    (∃ d, (AddDocument E m p ts []).Docs.get? p = some d ∧
      d.LastModified = ts ∧ d.Count = 0 ∧ d.TF.entries = []) := by
  have hd := AddDocument.docs_get? E m p ts content p
  have h0 := AddDocument.docs_get? E m p ts [] p
  rw [if_pos rfl] at hd h0
  refine ⟨⟨_, hd, rfl, (AddDocument.loop_tokens E content).1,
    (AddDocument.loop_tokens E content).2⟩, ?_, ⟨_, h0, rfl, ?_, ?_⟩⟩
  · intro q hq
    rw [AddDocument.docs_get?, if_neg hq]
  · simp [AddDocument.loop, Lexer.NextToken, Lexer.trimLeft, NewLexer, advanceWhile]
  · simp [AddDocument.loop, Lexer.NextToken, Lexer.trimLeft, NewLexer, advanceWhile, GoMap.empty]

/-- C4. Full replacement: from a state reached from `NewModel()`, `AddDocument(p, t1, c1)`
followed by `AddDocument(p, t2, c2)` leaves the same `Docs` and the same `DF` as
`AddDocument(p, t2, c2)` alone; in particular `AddDocument` repeated with the same
arguments changes nothing. -/
theorem add_document_replaces (E : Env) (s : Model) (hs : Reachable E s) (p : String)
    (t1 t2 : Time) (c1 c2 : List Char) :
    ((AddDocument E (AddDocument E s p t1 c1) p t2 c2).Docs.Same
        (AddDocument E s p t2 c2).Docs ∧
      (AddDocument E (AddDocument E s p t1 c1) p t2 c2).DF.Same
        (AddDocument E s p t2 c2).DF) ∧
    ((AddDocument E (AddDocument E s p t2 c2) p t2 c2).Docs.Same
        (AddDocument E s p t2 c2).Docs ∧
      (AddDocument E (AddDocument E s p t2 c2) p t2 c2).DF.Same
        (AddDocument E s p t2 c2).DF) := by
  have key : ∀ (t1 : Time) (c1 : List Char),
      (AddDocument E (AddDocument E s p t1 c1) p t2 c2).Docs.Same
          (AddDocument E s p t2 c2).Docs ∧
        (AddDocument E (AddDocument E s p t1 c1) p t2 c2).DF.Same
          (AddDocument E s p t2 c2).DF := by
    intro t1 c1
    constructor
    · intro k
      rw [AddDocument.docs_get? E (AddDocument E s p t1 c1) p t2 c2 k,
        AddDocument.docs_get? E s p t2 c2 k]
      by_cases hk : k = p
      · simp only [hk, if_true]
      · simp only [hk, if_false]
        rw [AddDocument.docs_get?, if_neg hk]
    · intro t
      have hsame := RemoveDocument.after_add E s p t1 c1 (hs.inv.remove p).no_zero
      rw [AddDocument.df_get?, AddDocument.df_get?]
      simp only [GoMap.get_eq, hsame t]
  exact ⟨key t1 c1, key t2 c2⟩

/-- C4, at a path stored twice over. -/
theorem add_document_replaces_witness :
    (AddDocument (asciiEnv id) (AddDocument (asciiEnv id) replacedState "p" 1 ['b']) "p" 2 ['c']).DF.Same
      (AddDocument (asciiEnv id) replacedState "p" 2 ['c']).DF :=
  (add_document_replaces (asciiEnv id) replacedState (Reachable.add _ _ _ _ Reachable.init)
    "p" 1 2 ['b'] ['c']).1.2

/-- C6. `RequiresReindexing(path, ts)` is true exactly when no document is stored for
`path` or the stored `LastModified` is strictly earlier than `ts`; the call leaves the
model as it was; right after `AddDocument(p, T, c)` it is false at `T`, true at `T + 1`
and false at `T - 1`. -/
theorem requires_reindexing_spec (E : Env) (m : Model) (p : String) (ts : Time) :
    ((RequiresReindexing m p ts).1 = true ↔
      (m.Docs.get? p = none ∨ ∃ d, m.Docs.get? p = some d ∧ d.LastModified < ts)) ∧
    (RequiresReindexing m p ts).2 = m ∧
    ∀ (T : Time) (c : List Char),
      (RequiresReindexing (AddDocument E m p T c) p T).1 = false ∧
      (RequiresReindexing (AddDocument E m p T c) p (T + 1)).1 = true ∧
      (RequiresReindexing (AddDocument E m p T c) p (T - 1)).1 = false := by
  refine ⟨?_, ?_, fun T c => ?_⟩
  · unfold RequiresReindexing
    cases h : m.Docs.get? p with
    | none => simp
    | some d => simp
  · unfold RequiresReindexing
    cases m.Docs.get? p <;> rfl
  · have hstored := AddDocument.docs_get? E m p T c p
    rw [if_pos rfl] at hstored
    unfold RequiresReindexing
    simp only [hstored]
    refine ⟨?_, ?_, ?_⟩ <;> simp

/-! ## The lexer, on the text still to read -/

theorem advanceWhile_eq (p : Char → Bool) (content : List Char) (fuel pos : Nat)
    (h : content.length - pos ≤ fuel) :
    advanceWhile p content fuel pos = pos + ((content.drop pos).takeWhile p).length := by
  induction fuel generalizing pos with
  | zero =>
    have : content.drop pos = [] := List.drop_eq_nil_of_le (by omega)
    simp [advanceWhile, this]
  | succ n ih =>
    unfold advanceWhile
    by_cases hlt : pos < content.length
    · rw [dif_pos hlt, List.drop_eq_getElem_cons hlt, List.takeWhile_cons]
      by_cases hp : p content[pos] = true
      · rw [if_pos hp, if_pos hp, ih (pos + 1) (by omega)]
        simp only [List.length_cons]; omega
      · rw [if_neg hp, if_neg hp]; simp
    · rw [dif_neg hlt]
      have : content.drop pos = [] := List.drop_eq_nil_of_le (by omega)
      simp [this]

theorem drop_length_takeWhile (p : Char → Bool) (l : List Char) :
    l.drop (l.takeWhile p).length = l.dropWhile p := by
  have h := List.drop_left (l.takeWhile p) (l.dropWhile p)
  rwa [List.takeWhile_append_dropWhile] at h

theorem take_length_takeWhile (p : Char → Bool) (l : List Char) :
    l.take (l.takeWhile p).length = l.takeWhile p := by
  have h := List.take_left (l.takeWhile p) (l.dropWhile p)
  rwa [List.takeWhile_append_dropWhile] at h

theorem length_takeWhile_add (p : Char → Bool) (l : List Char) :
    (l.takeWhile p).length + (l.dropWhile p).length = l.length := by
  have h := congrArg List.length (List.takeWhile_append_dropWhile p l)
  rwa [List.length_append] at h

theorem Lexer.slice_run (p : Char → Bool) (content : List Char) (pos : Nat) :
    Lexer.slice content pos (pos + ((content.drop pos).takeWhile p).length)
      = (content.drop pos).takeWhile p := by
  unfold Lexer.slice
  rw [List.drop_take, Nat.add_sub_cancel_left, take_length_takeWhile]

theorem Lexer.chopWhile_eq (p : Char → Bool) (l : Lexer) :
    Lexer.chopWhile p l =
      ((l.content.drop l.position).takeWhile p,
        { l with position := l.position + ((l.content.drop l.position).takeWhile p).length }) := by
  unfold Lexer.chopWhile
  simp only [advanceWhile_eq p l.content _ l.position (Nat.le_refl _), Lexer.slice_run]

theorem Lexer.trimLeft_eq (E : Env) (l : Lexer) :
    l.trimLeft E =
      { l with position :=
          l.position + ((l.content.drop l.position).takeWhile E.IsSpace).length } := by
  unfold Lexer.trimLeft
  rw [advanceWhile_eq _ l.content _ l.position (Nat.le_refl _)]

theorem Lexer.NextToken_eq_scan (E : Env) (l : Lexer) :
    l.NextToken E =
      match Lexer.scan E (l.content.drop l.position) with
      | none =>
        (("", false), { l with position :=
          l.position + ((l.content.drop l.position).takeWhile E.IsSpace).length })
      | some (token, rest) =>
        ((token, true), { l with position := l.content.length - rest.length }) := by
  obtain ⟨content, pos⟩ := l
  simp only []
  have hdrop : content.drop (pos + ((content.drop pos).takeWhile E.IsSpace).length)
      = (content.drop pos).dropWhile E.IsSpace := by
    rw [← List.drop_drop, drop_length_takeWhile]
  have hlen := length_takeWhile_add E.IsSpace (content.drop pos)
  rw [List.length_drop] at hlen
  have hT := Lexer.trimLeft_eq E { content := content, position := pos }
  simp only [] at hT
  unfold Lexer.NextToken Lexer.scan
  simp only []
  cases hs : (content.drop pos).dropWhile E.IsSpace with
  | nil =>
    rw [hs] at hdrop
    have hge : (Lexer.trimLeft E { content := content, position := pos }).position ≥
        (Lexer.trimLeft E { content := content, position := pos }).content.length := by
      rw [hT]; exact List.drop_eq_nil_iff.1 hdrop
    rw [dif_pos hge, hT]
  | cons c cs =>
    rw [hs] at hdrop hlen
    have hlt : pos + ((content.drop pos).takeWhile E.IsSpace).length < content.length := by
      by_contra hc
      rw [List.drop_eq_nil_of_le (by omega)] at hdrop
      cases hdrop
    have hnge : ¬ (Lexer.trimLeft E { content := content, position := pos }).position ≥
        (Lexer.trimLeft E { content := content, position := pos }).content.length := by
      rw [hT]; simp only []; omega
    have hc : ∀ pf, (Lexer.trimLeft E { content := content, position := pos }).content.get
        ⟨(Lexer.trimLeft E { content := content, position := pos }).position, pf⟩ = c := by
      rw [hT]
      intro pf
      have := List.drop_eq_getElem_cons hlt
      rw [hdrop] at this
      exact (List.cons.inj this).1.symm
    rw [dif_neg hnge]
    simp only [hc, Lexer.chopWhile_eq, Lexer.chop]
    rw [hT]
    simp only [hdrop]
    simp only [List.length_cons] at hlen
    by_cases hd : E.IsDigit c = true
    · have h2 := length_takeWhile_add E.IsDigit (c :: cs)
      simp only [List.length_cons] at h2
      simp only [hd, if_true]
      congr 2; omega
    · by_cases hl : E.IsLetter c = true
      · have h2 := length_takeWhile_add (fun r => E.IsLetter r || E.IsDigit r) (c :: cs)
        simp only [List.length_cons] at h2
        simp only [hd, hl, if_true, if_false, Bool.false_eq_true, reduceIte]
        congr 2; omega
      · simp only [hd, hl, if_false, Bool.false_eq_true, reduceIte]
        have hsl : Lexer.slice content
            (pos + ((content.drop pos).takeWhile E.IsSpace).length)
            (pos + ((content.drop pos).takeWhile E.IsSpace).length + 1) = [c] := by
          unfold Lexer.slice
          rw [List.drop_take, Nat.add_sub_cancel_left, hdrop]; rfl
        simp only [hsl]
        congr 2; omega

theorem length_dropWhile_le (p : Char → Bool) (l : List Char) :
    (l.dropWhile p).length ≤ l.length := by
  have := length_takeWhile_add p l
  omega

theorem Lexer.scan_length (E : Env) (rest : List Char) (token : String) (after : List Char)
    (h : Lexer.scan E rest = some (token, after)) : after.length < rest.length := by
  unfold Lexer.scan at h
  have hle := length_dropWhile_le E.IsSpace rest
  cases hs : rest.dropWhile E.IsSpace with
  | nil => rw [hs] at h; cases h
  | cons c cs =>
    rw [hs] at h hle
    simp only [List.length_cons] at hle
    by_cases hd : E.IsDigit c = true
    · simp only [hd, if_true, Option.some.injEq, Prod.mk.injEq] at h
      rw [← h.2, List.dropWhile_cons, if_pos hd]
      have := length_dropWhile_le E.IsDigit cs
      omega
    · by_cases hl : E.IsLetter c = true
      · simp only [hd, hl, if_true, if_false, Bool.false_eq_true, reduceIte, Option.some.injEq,
          Prod.mk.injEq] at h
        have hp : (fun r => E.IsLetter r || E.IsDigit r) c = true := by simp [hl]
        rw [← h.2, List.dropWhile_cons, if_pos hp]
        have := length_dropWhile_le (fun r => E.IsLetter r || E.IsDigit r) cs
        omega
      · simp only [hd, hl, if_false, Bool.false_eq_true, reduceIte, Option.some.injEq,
          Prod.mk.injEq] at h
        rw [← h.2]; omega

theorem Lexer.NextToken_progress (E : Env) (l l' : Lexer) (token : String)
    (h : l.NextToken E = ((token, true), l')) :
    l.position < l'.position ∧ l'.position ≤ l'.content.length ∧ l'.content = l.content := by
  rw [Lexer.NextToken_eq_scan] at h
  cases hs : Lexer.scan E (l.content.drop l.position) with
  | none => rw [hs] at h; simp at h
  | some r =>
    obtain ⟨tok, after⟩ := r
    rw [hs] at h
    simp only [Prod.mk.injEq] at h
    have hlen := Lexer.scan_length E _ _ _ hs
    rw [List.length_drop] at hlen
    rw [← h.2]
    simp only []
    refine ⟨by omega, by omega, trivial⟩

theorem Lexer.NextToken_end (E : Env) (l l' : Lexer) (token : String)
    (h : l.NextToken E = ((token, false), l')) :
    token = "" ∧ l'.NextToken E = (("", false), l') := by
  rw [Lexer.NextToken_eq_scan] at h
  cases hs : Lexer.scan E (l.content.drop l.position) with
  | some r => rw [hs] at h; simp at h
  | none =>
    rw [hs] at h
    simp only [Prod.mk.injEq] at h
    refine ⟨h.1.1.symm, ?_⟩
    have hnil : (l.content.drop l.position).dropWhile E.IsSpace = [] := by
      unfold Lexer.scan at hs
      cases hd : (l.content.drop l.position).dropWhile E.IsSpace with
      | nil => rfl
      | cons c cs =>
        rw [hd] at hs
        by_cases h1 : E.IsDigit c = true
        · simp [h1] at hs
        · by_cases h2 : E.IsLetter c = true
          · simp [h1, h2] at hs
          · simp [h1, h2] at hs
    have hdrop : l.content.drop
        (l.position + ((l.content.drop l.position).takeWhile E.IsSpace).length) = [] := by
      rw [← List.drop_drop, drop_length_takeWhile, hnil]
    rw [Lexer.NextToken_eq_scan, ← h.2]
    simp only [hdrop]
    simp [Lexer.scan]

theorem SearchQuery.loop_length (E : Env) (fuel : Nat) (l : Lexer)
    (hl : l.position ≤ l.content.length) :
    (SearchQuery.loop E fuel l []).length ≤ l.content.length - l.position := by
  induction fuel generalizing l with
  | zero => simp [SearchQuery.loop]
  | succ n ih =>
    unfold SearchQuery.loop
    rcases hn : l.NextToken E with ⟨⟨token, ok⟩, l'⟩
    cases ok
    · simp
    · simp only []
      have hp := Lexer.NextToken_progress E l l' token hn
      rw [SearchQuery.loop_append]
      have := ih l' hp.2.1
      rw [hp.2.2] at this
      simp only [List.nil_append, List.length_append, List.length_cons, List.length_nil]
      rw [hp.2.2] at hp
      omega

theorem SearchQuery.loop_stable (E : Env) (fuel fuel' : Nat) (l : Lexer)
    (tokens : List String)
    (h : l.content.length - l.position + 1 ≤ fuel)
    (h' : l.content.length - l.position + 1 ≤ fuel') :
    SearchQuery.loop E fuel l tokens = SearchQuery.loop E fuel' l tokens := by
  induction fuel generalizing fuel' l tokens with
  | zero => omega
  | succ n ih =>
    cases fuel' with
    | zero => omega
    | succ k =>
      unfold SearchQuery.loop
      rcases hn : l.NextToken E with ⟨⟨token, ok⟩, l'⟩
      cases ok
      · rfl
      · simp only []
        have hp := Lexer.NextToken_progress E l l' token hn
        have hc := hp.2.2
        rw [hc] at hp
        apply ih
        · rw [hc]; omega
        · rw [hc]; omega

/-! ## Progress of the tokenizer -/

theorem AddDocument.add_loop_stable (E : Env) (fuel fuel' : Nat) (l : Lexer) (tf : TermFreq)
    (count : Int)
    (h : l.content.length - l.position + 1 ≤ fuel)
    (h' : l.content.length - l.position + 1 ≤ fuel') :
    AddDocument.loop E fuel l tf count = AddDocument.loop E fuel' l tf count := by
  rw [AddDocument.loop_eq_foldl, AddDocument.loop_eq_foldl,
    SearchQuery.loop_stable E fuel fuel' l [] h h']

theorem Lexer.chopWhile_bounds (p : Char → Bool) (l : Lexer)
    (hl : l.position ≤ l.content.length) :
    l.position ≤ (Lexer.chopWhile p l).2.position ∧
      (Lexer.chopWhile p l).2.position ≤ l.content.length := by
  rw [Lexer.chopWhile_eq]
  simp only []
  have := length_takeWhile_add p (l.content.drop l.position)
  rw [List.length_drop] at this
  omega

theorem Lexer.trimLeft_bounds (E : Env) (l : Lexer) (hl : l.position ≤ l.content.length) :
    l.position ≤ (l.trimLeft E).position ∧ (l.trimLeft E).position ≤ l.content.length := by
  rw [Lexer.trimLeft_eq]
  simp only []
  have := length_takeWhile_add E.IsSpace (l.content.drop l.position)
  rw [List.length_drop] at this
  omega

/-- C8. Progress and finiteness of the tokenizer.  A `NextToken` call that returns
`ok = true` strictly increases the position, leaves it at most `len(content)` and leaves
the content alone; a call that returns `ok = false` returns the empty token and a lexer on
which every later call returns `("", false)` again; the slices `trimLeft` and `chopWhile`
take stay within the content, and their loops end before the bound `len - position` runs
out; the lexer produces at most `len(content)` tokens, and the token loops of
`SearchQuery` and `AddDocument` return the same result for every bound above
`len(content)`: they end on the end-of-input signal. -/
theorem tokenizer_progress (E : Env) :
    (∀ (l l' : Lexer) (token : String), l.NextToken E = ((token, true), l') →
      l.position < l'.position ∧ l'.position ≤ l'.content.length ∧ l'.content = l.content) ∧
    (∀ (l l' : Lexer) (token : String), l.NextToken E = ((token, false), l') →
      token = "" ∧ l'.NextToken E = (("", false), l')) ∧
    (∀ (l : Lexer), l.position ≤ l.content.length →
      (l.position ≤ (l.trimLeft E).position ∧ (l.trimLeft E).position ≤ l.content.length) ∧
      ∀ p : Char → Bool, l.position ≤ (Lexer.chopWhile p l).2.position ∧
        (Lexer.chopWhile p l).2.position ≤ l.content.length) ∧
    (∀ (p : Char → Bool) (content : List Char) (fuel position : Nat),
      content.length - position ≤ fuel →
      advanceWhile p content fuel position
        = advanceWhile p content (content.length - position) position) ∧
    (∀ content : List Char, (Lexer.tokens E content).length ≤ content.length) ∧
    (∀ (content : List Char) (fuel : Nat), content.length + 1 ≤ fuel →
      SearchQuery.loop E fuel (NewLexer content) [] = Lexer.tokens E content ∧
      AddDocument.loop E fuel (NewLexer content) GoMap.empty 0
        = AddDocument.loop E (content.length + 1) (NewLexer content) GoMap.empty 0) := by
  refine ⟨Lexer.NextToken_progress E, Lexer.NextToken_end E, ?_, ?_, ?_, ?_⟩
  · intro l hl
    exact ⟨Lexer.trimLeft_bounds E l hl, fun p => Lexer.chopWhile_bounds p l hl⟩
  · intro p content fuel position h
    rw [advanceWhile_eq p content fuel position h,
      advanceWhile_eq p content _ position (Nat.le_refl _)]
  · intro content
    have := SearchQuery.loop_length E (content.length + 1) (NewLexer content) (Nat.zero_le _)
    simpa [Lexer.tokens, NewLexer] using this
  · intro content fuel h
    constructor
    · exact SearchQuery.loop_stable E fuel (content.length + 1) (NewLexer content) []
        (by simpa [NewLexer] using h) (by simp [NewLexer])
    · exact AddDocument.add_loop_stable E fuel (content.length + 1) (NewLexer content) _ _
        (by simpa [NewLexer] using h) (by simp [NewLexer])

theorem takeWhile_run (p : Char → Bool) (run after : List Char)
    (hrun : ∀ c ∈ run, p c = true) (hafter : ∀ c cs, after = c :: cs → p c = false) :
    (run ++ after).takeWhile p = run ∧ (run ++ after).dropWhile p = after := by
  induction run with
  | nil =>
    cases after with
    | nil => simp
    | cons c cs =>
      have := hafter c cs rfl
      simp [List.takeWhile_cons, List.dropWhile_cons, this]
  | cons a run ih =>
    have ha : p a = true := hrun a (List.mem_cons_self _ _)
    have := ih (fun c hc => hrun c (List.mem_cons_of_mem _ hc))
    simp [List.takeWhile_cons, List.dropWhile_cons, ha, this.1, this.2]

/-! ## The rule order of the tokenizer -/

theorem Lexer.NextToken_at (E : Env) (before rest after : List Char) (token : String)
    (h : Lexer.scan E rest = some (token, after)) :
    Lexer.NextToken E { content := before ++ rest, position := before.length }
      = ((token, true),
          { content := before ++ rest, position := (before ++ rest).length - after.length }) := by
  rw [Lexer.NextToken_eq_scan]
  simp only [List.drop_left, h]

theorem Lexer.scan_digits (E : Env) (ws run after : List Char) (d : Char) (ds : List Char)
    (hws : ∀ c ∈ ws, E.IsSpace c = true) (hrun : run = d :: ds) (hd : E.IsSpace d = false)
    (hdigits : ∀ c ∈ run, E.IsDigit c = true)
    (hmax : ∀ c cs, after = c :: cs → E.IsDigit c = false) :
    Lexer.scan E (ws ++ run ++ after) = some (String.mk run, after) := by
  have h1 := takeWhile_run E.IsSpace ws (run ++ after) hws
    (by intro c cs h; rw [hrun] at h; cases h; exact hd)
  have h2 := takeWhile_run E.IsDigit run after hdigits hmax
  have hd1 : E.IsDigit d = true := hdigits d (by rw [hrun]; exact List.mem_cons_self _ _)
  unfold Lexer.scan
  rw [List.append_assoc, h1.2]
  subst hrun
  simp only [List.cons_append, hd1, if_true]
  rw [← List.cons_append, h2.1, h2.2]

theorem Lexer.scan_word (E : Env) (word tail : List Char) (c : Char) (cs : List Char)
    (hword : word = c :: cs) (hs : E.IsSpace c = false) (hd : E.IsDigit c = false)
    (hl : E.IsLetter c = true)
    (hrun : ∀ x ∈ word, (E.IsLetter x || E.IsDigit x) = true)
    (hmax : ∀ x xs, tail = x :: xs → (E.IsLetter x || E.IsDigit x) = false) :
    Lexer.scan E (word ++ tail)
      = some (E.StemString (E.ToLower (String.mk word)), tail) := by
  have h2 := takeWhile_run (fun r => E.IsLetter r || E.IsDigit r) word tail hrun hmax
  unfold Lexer.scan
  subst hword
  have hsp : (c :: (cs ++ tail)).dropWhile E.IsSpace = c :: (cs ++ tail) := by
    rw [List.dropWhile_cons]; simp [hs]
  simp only [List.cons_append] at h2 ⊢
  rw [hsp]
  simp only [hd, hl, if_true, if_false, Bool.false_eq_true, reduceIte, h2.1, h2.2]

theorem tokens_3d_printer (stem : String → String) :
    Lexer.tokens (asciiEnv stem) ['3', 'd'] = ["3", stem "d"] ∧
    Lexer.tokens (asciiEnv stem) ['3', 'd', ' ', 'p', 'r', 'i', 'n', 't', 'e', 'r']
      = ["3", stem "d", stem "printer"] := by
  have s0 : Lexer.scan (asciiEnv stem) [] = none := rfl
  have s1 : Lexer.scan (asciiEnv stem) ['3', 'd'] = some ("3", ['d']) := rfl
  have s2 : Lexer.scan (asciiEnv stem) ['d'] = some (stem "d", []) := rfl
  have s3 : Lexer.scan (asciiEnv stem) ['3', 'd', ' ', 'p', 'r', 'i', 'n', 't', 'e', 'r']
      = some ("3", ['d', ' ', 'p', 'r', 'i', 'n', 't', 'e', 'r']) := rfl
  have s4 : Lexer.scan (asciiEnv stem) ['d', ' ', 'p', 'r', 'i', 'n', 't', 'e', 'r']
      = some (stem "d", [' ', 'p', 'r', 'i', 'n', 't', 'e', 'r']) := rfl
  have s5 : Lexer.scan (asciiEnv stem) [' ', 'p', 'r', 'i', 'n', 't', 'e', 'r']
      = some (stem "printer", []) := rfl
  constructor
  · simp [Lexer.tokens, SearchQuery.loop, NewLexer, Lexer.NextToken_eq_scan, s0, s1, s2]
  · simp [Lexer.tokens, SearchQuery.loop, NewLexer, Lexer.NextToken_eq_scan, s0, s3, s4, s5]

/-- C7 fails on its example.  The Porter algorithm keeps `printer` (step 4 drops `er` only
after a stem of measure above 1, and `print` has measure 1) and keeps `d` (a word of at
most two letters is returned as it is); with a stemmer that keeps both words `"3d printer"`
gives `["3", "d", "printer"]`, not `["3", "d", "print"]`. -/
theorem printer_is_not_stemmed_to_print :
    Lexer.tokens (asciiEnv id) ['3', 'd', ' ', 'p', 'r', 'i', 'n', 't', 'e', 'r']
        = ["3", "d", "printer"] ∧
      Lexer.tokens (asciiEnv id) ['3', 'd', ' ', 'p', 'r', 'i', 'n', 't', 'e', 'r']
        ≠ ["3", "d", "print"] := by
  refine ⟨by decide, by decide⟩

/-- C7, amended. Rule order of the tokenizer.  When the first character that is not
whitespace is a digit, the first token is the maximal run of digits starting there, as
written (neither lowercased nor stemmed), also when a letter follows at once; the letters
after it start the next token, the stemmed lowercase word.  On ASCII text `"3d"` gives
`"3"` then the stem of `"d"`, and `"3d printer"` gives exactly the three tokens `"3"`, the
stem of `"d"`, the stem of `"printer"`; with a stemmer that keeps `"d"` and `"printer"`, as
the Porter algorithm does, these are `["3", "d"]` and `["3", "d", "printer"]`. -/
theorem digits_before_letters (E : Env) (ws run after : List Char) (d : Char) (ds : List Char)
    (hws : ∀ c ∈ ws, E.IsSpace c = true) (hrun : run = d :: ds) (hd : E.IsSpace d = false)
    (hdigits : ∀ c ∈ run, E.IsDigit c = true)
    (hmax : ∀ c cs, after = c :: cs → E.IsDigit c = false) :
    Lexer.NextToken E (NewLexer (ws ++ run ++ after))
        = ((String.mk run, true),
            { content := ws ++ run ++ after, position := ws.length + run.length }) ∧
    (∀ (word tail : List Char) (c : Char) (cs : List Char),
        after = word ++ tail → word = c :: cs → E.IsSpace c = false → E.IsLetter c = true →
        (∀ x ∈ word, (E.IsLetter x || E.IsDigit x) = true) →
        (∀ x xs, tail = x :: xs → (E.IsLetter x || E.IsDigit x) = false) →
        Lexer.NextToken E { content := ws ++ run ++ after, position := ws.length + run.length }
          = ((E.StemString (E.ToLower (String.mk word)), true),
              { content := ws ++ run ++ after,
                position := ws.length + run.length + word.length })) ∧
    (∀ stem : String → String,
        Lexer.tokens (asciiEnv stem) ['3', 'd'] = ["3", stem "d"] ∧
        Lexer.tokens (asciiEnv stem) ['3', 'd', ' ', 'p', 'r', 'i', 'n', 't', 'e', 'r']
          = ["3", stem "d", stem "printer"]) ∧
    Lexer.tokens (asciiEnv id) ['3', 'd'] = ["3", "d"] ∧
    Lexer.tokens (asciiEnv id) ['3', 'd', ' ', 'p', 'r', 'i', 'n', 't', 'e', 'r']
      = ["3", "d", "printer"] := by
  refine ⟨?_, ?_, tokens_3d_printer, (tokens_3d_printer id).1, (tokens_3d_printer id).2⟩
  · have h := Lexer.NextToken_at E [] (ws ++ run ++ after) after (String.mk run)
      (Lexer.scan_digits E ws run after d ds hws hrun hd hdigits hmax)
    simp only [List.nil_append, List.length_nil] at h
    rw [NewLexer, h]
    simp only [List.length_append, Nat.add_sub_cancel]
  · intro word tail c cs hafter hword hs hl hw htail
    have hdc : E.IsDigit c = false := hmax c (cs ++ tail) (by rw [hafter, hword]; rfl)
    have h := Lexer.NextToken_at E (ws ++ run) (word ++ tail) tail _
      (Lexer.scan_word E word tail c cs hword hs hdc hl hw htail)
    simp only [List.length_append] at h
    rw [hafter]
    rw [h]
    congr 2
    omega

/-- C7 amended, at `" 42nd."`: the digit run `42` is the first token and the word `nd`
the second. -/
theorem digits_before_letters_witness :
    Lexer.NextToken (asciiEnv id) (NewLexer ([' '] ++ ['4', '2'] ++ ['n', 'd', '.']))
        = (("42", true),
            { content := [' '] ++ ['4', '2'] ++ ['n', 'd', '.'], position := 3 }) ∧
      Lexer.NextToken (asciiEnv id)
          { content := [' '] ++ ['4', '2'] ++ ['n', 'd', '.'], position := 3 }
        = (("nd", true),
            { content := [' '] ++ ['4', '2'] ++ ['n', 'd', '.'], position := 5 }) :=
  ⟨(digits_before_letters (asciiEnv id) [' '] ['4', '2'] ['n', 'd', '.'] '4' ['2']
      (by decide) rfl (by decide) (by decide)
      (by intro c cs h; cases h; decide)).1,
    (digits_before_letters (asciiEnv id) [' '] ['4', '2'] ['n', 'd', '.'] '4' ['2']
      (by decide) rfl (by decide) (by decide)
      (by intro c cs h; cases h; decide)).2.1 ['n', 'd'] ['.'] 'n' ['d'] rfl rfl
        (by decide) (by decide) (by decide) (by intro x xs h; cases h; decide)⟩

/-! ## Orders on ranks and sorted results -/

theorem F64.gt_asymm (x y : F64) (h : F64.gt x y = true) : F64.gt y x = false := by
  cases x <;> cases y <;> simp [F64.gt] at h ⊢
  · rename_i a b; cases a <;> cases b <;> simp at h ⊢
  · exact h
  · exact h
  · exact le_of_lt h

theorem F64.gt_le_trans (x y z : F64) (hy : y.isNaN = false)
    (h : F64.gt x y = true) (h' : F64.gt z y = false) : F64.gt z x = false := by
  cases x <;> cases y <;> cases z <;> simp [F64.gt, F64.isNaN] at h h' hy ⊢
  case inf.inf.inf a b c => cases a <;> cases b <;> cases c <;> simp at h h' ⊢
  case inf.fin.inf a b c => cases a <;> cases c <;> simp at h h' ⊢
  case fin.inf.inf a b c =>
    cases c
    · rw [h' rfl] at h; cases h
    · rfl
  case fin.fin.fin a b c => linarith
  case inf.inf.fin a b c => exact h.1
  case inf.fin.fin a b c => exact h
  case fin.inf.fin a b c => rw [h] at h'; cases h'
  case fin.fin.inf a b c => exact h'

theorem insertSorted_perm (less : SearchResult → SearchResult → Bool) (x : SearchResult)
    (l : List SearchResult) : (insertSorted less x l).Perm (x :: l) := by
  induction l with
  | nil => exact List.Perm.refl _
  | cons y ys ih =>
    unfold insertSorted
    by_cases h : less x y = true
    · rw [if_pos h]
    · rw [if_neg h]
      exact (List.Perm.cons y ih).trans (List.Perm.swap x y ys)

theorem insertSorted_sorted (x : SearchResult) (l : List SearchResult)
    (hx : x.Rank.isNaN = false) (hl : ∀ r ∈ l, r.Rank.isNaN = false)
    (hs : l.Pairwise (fun a b => F64.gt b.Rank a.Rank = false)) :
    (insertSorted SearchQuery.less x l).Pairwise (fun a b => F64.gt b.Rank a.Rank = false) := by
  induction l with
  | nil => simp [insertSorted]
  | cons y ys ih =>
    rw [List.pairwise_cons] at hs
    unfold insertSorted
    by_cases h : SearchQuery.less x y = true
    · rw [if_pos h]
      have hxy : F64.gt x.Rank y.Rank = true := h
      refine List.Pairwise.cons ?_ (List.Pairwise.cons hs.1 hs.2)
      intro z hz
      rcases List.mem_cons.1 hz with rfl | hz
      · exact F64.gt_asymm _ _ hxy
      · exact F64.gt_le_trans _ _ _ (hl y (List.mem_cons_self _ _)) hxy (hs.1 z hz)
    · rw [if_neg h]
      have hxy : F64.gt x.Rank y.Rank = false := by
        simpa [SearchQuery.less] using h
      refine List.Pairwise.cons ?_
        (ih (fun r hr => hl r (List.mem_cons_of_mem _ hr)) hs.2)
      intro z hz
      rcases List.mem_cons.1 ((insertSorted_perm _ x ys).mem_iff.1 hz) with rfl | hz
      · exact hxy
      · exact hs.1 z hz

theorem insertionSort_spec (l acc : List SearchResult)
    (hl : ∀ r ∈ l, r.Rank.isNaN = false) (hacc : ∀ r ∈ acc, r.Rank.isNaN = false)
    (hs : acc.Pairwise (fun a b => F64.gt b.Rank a.Rank = false)) :
    (l.foldl (fun sorted x => insertSorted SearchQuery.less x sorted) acc).Perm (l ++ acc) ∧
    (l.foldl (fun sorted x => insertSorted SearchQuery.less x sorted) acc).Pairwise
      (fun a b => F64.gt b.Rank a.Rank = false) := by
  induction l generalizing acc with
  | nil => exact ⟨List.Perm.refl _, hs⟩
  | cons x xs ih =>
    rw [List.foldl_cons]
    have hx := hl x (List.mem_cons_self _ _)
    have hp := insertSorted_perm SearchQuery.less x acc
    have h := ih (insertSorted SearchQuery.less x acc)
      (fun r hr => hl r (List.mem_cons_of_mem _ hr))
      (fun r hr => by
        rcases List.mem_cons.1 (hp.mem_iff.1 hr) with rfl | hr
        · exact hx
        · exact hacc r hr)
      (insertSorted_sorted x acc hx hacc hs)
    refine ⟨h.1.trans ?_, h.2⟩
    exact (List.Perm.append_left xs hp).trans List.perm_middle

theorem asciiEnv_sortsByRank (stem : String → String) : (asciiEnv stem).SortsByRank := by
  intro l hl
  have h := insertionSort_spec l [] hl (fun r hr => by cases hr) List.Pairwise.nil
  rw [List.append_nil] at h
  exact h

theorem asciiEnv_logSign (stem : String → String) : (asciiEnv stem).LogSign := by
  constructor
  · show approxLog10 (F64.fin 1) = F64.fin 0
    simp [approxLog10]
  · intro q hq
    refine ⟨2 * (q - 1) / (q + 1) * (4343 / 10000), ?_, ?_⟩
    · have h1 : 0 < q - 1 := by linarith
      have h2 : 0 < q + 1 := by linarith
      positivity
    · show approxLog10 (F64.fin q) = _
      have h0 : ¬ q < 0 := by linarith
      have h1 : q ≠ 0 := by linarith
      simp [approxLog10, h0, h1]

/-! ## Ranks -/

theorem TFok.zero_count {tf : TermFreq} (h : TFok tf 0) : tf.entries = [] := by
  have key : ∀ l : List (String × Int), (∀ e ∈ l, 0 < e.2) →
      0 ≤ (l.map Prod.snd).sum ∧ ((l.map Prod.snd).sum = 0 → l = []) := by
    intro l
    induction l with
    | nil => intro _; exact ⟨le_refl _, fun _ => rfl⟩
    | cons e es ih =>
      intro hpos
      have h1 := hpos e (List.mem_cons_self _ _)
      have h2 := (ih (fun x hx => hpos x (List.mem_cons_of_mem _ hx))).1
      simp only [List.map_cons, List.sum_cons]
      exact ⟨by omega, fun h0 => by omega⟩
  exact (key tf.entries h.2).2 h.1

theorem computeTF_zero_count (d : Doc) (h : TFok d.TF d.Count) (hc : d.Count = 0)
    (term : String) : computeTF term d = F64.nan := by
  rw [hc] at h
  have he := h.zero_count
  have hg : d.TF.get term = 0 := by simp [GoMap.get, GoMap.get?, he]
  simp [computeTF, hg, hc, F64.ofInt, F64.div]

theorem SearchQuery.rank_nan_foldl (E : Env) (m : Model) (doc : Doc) (tokens : List String) :
    tokens.foldl
      (fun rank token =>
        F64.add rank (F64.mul (computeTF token doc) (computeIDF E token m.Docs.len m.DF)))
      F64.nan = F64.nan := by
  induction tokens with
  | nil => rfl
  | cons t ts ih => rw [List.foldl_cons]; exact ih

theorem SearchQuery.rank_zero_count (E : Env) (m : Model) (d : Doc) (h : TFok d.TF d.Count)
    (hc : d.Count = 0) (tokens : List String) (ht : tokens ≠ []) :
    SearchQuery.rank E m tokens d = F64.nan := by
  cases tokens with
  | nil => exact absurd rfl ht
  | cons t ts =>
    unfold SearchQuery.rank
    rw [List.foldl_cons, computeTF_zero_count d h hc t]
    exact SearchQuery.rank_nan_foldl E m d ts

theorem SearchQuery.mem_collect (E : Env) (m : Model) (tokens : List String)
    (r : SearchResult) :
    r ∈ SearchQuery.collect E m tokens ↔
      ∃ e ∈ m.Docs.entries, (SearchQuery.rank E m tokens e.2).isNaN = false ∧
        r = { Path := e.1, Rank := SearchQuery.rank E m tokens e.2 } := by
  unfold SearchQuery.collect
  rw [List.mem_filterMap]
  constructor
  · rintro ⟨e, he, h⟩
    by_cases hn : (SearchQuery.rank E m tokens e.2).isNaN = true
    · simp [hn] at h
    · have hn' : (SearchQuery.rank E m tokens e.2).isNaN = false := by simpa using hn
      simp only [hn', Bool.not_false, if_true, Option.some.injEq] at h
      exact ⟨e, he, hn', h.symm⟩
  · rintro ⟨e, he, hn, rfl⟩
    exact ⟨e, he, by simp [hn]⟩

theorem SearchQuery.mem_iff (E : Env) (hsort : E.SortsByRank) (m : Model)
    (query : List Char) (r : SearchResult) :
    r ∈ SearchQuery E m query ↔ r ∈ SearchQuery.collect E m (Lexer.tokens E query) := by
  unfold SearchQuery
  have h := hsort (SearchQuery.collect E m (Lexer.tokens E query)) (by
    intro x hx
    obtain ⟨e, _, hn, rfl⟩ := (SearchQuery.mem_collect E m _ x).1 hx
    exact hn)
  exact h.1.mem_iff

theorem SearchQuery.mem_of_stored (E : Env) (hsort : E.SortsByRank) (m : Model)
    (query : List Char) (p : String) (d : Doc) (hd : m.Docs.get? p = some d)
    (r : SearchResult) :
    (r ∈ SearchQuery E m query ∧ r.Path = p) ↔
      ((SearchQuery.rank E m (Lexer.tokens E query) d).isNaN = false ∧
        r = { Path := p, Rank := SearchQuery.rank E m (Lexer.tokens E query) d }) := by
  rw [SearchQuery.mem_iff E hsort, SearchQuery.mem_collect]
  constructor
  · rintro ⟨⟨e, he, hn, rfl⟩, hp⟩
    simp only [] at hp
    have : m.Docs.get? p = some e.2 := by
      rw [GoMap.get?_eq_some_iff, ← hp]; exact he
    rw [hd] at this
    cases this
    exact ⟨hn, by rw [hp]⟩
  · rintro ⟨hn, rfl⟩
    exact ⟨⟨(p, d), (GoMap.get?_eq_some_iff _ _ _).1 hd, hn, rfl⟩, rfl⟩

/-! ## Documents without a token -/

/-- C10 fails on a document added with empty content: its term frequency for `"a"` is
`0/0`, NaN, the rank the query `"a"` gives it is NaN, not 0, and `SearchQuery` returns
no result for it. -/
theorem zero_count_rank_is_not_zero :
    emptyDocState.Docs.get? "e" = some { TF := GoMap.empty, Count := 0, LastModified := 0 } ∧
    computeTF "a" { TF := GoMap.empty, Count := 0, LastModified := 0 } = F64.nan ∧
    SearchQuery.rank (asciiEnv id) emptyDocState (Lexer.tokens (asciiEnv id) ['a'])
        { TF := GoMap.empty, Count := 0, LastModified := 0 } ≠ F64.ofInt 0 ∧
    SearchQuery (asciiEnv id) emptyDocState ['a'] = [] := by
  refine ⟨rfl, by decide, by decide, rfl⟩

/-- C10, amended. For a document with total token count 0 stored in a state reached from
`NewModel()`, `computeTF` divides 0 by 0 and gives NaN for every term; for every query
with at least one token the rank of the document is NaN and `SearchQuery` returns no
result for its path; for a query without a token the rank is 0 and the document is
returned with it. -/
theorem zero_count_document_is_dropped (E : Env) (hsort : E.SortsByRank) (m : Model)
    (hm : Reachable E m) (p : String) (d : Doc) (hd : m.Docs.get? p = some d)
    (hc : d.Count = 0) :
    (∀ term, computeTF term d = F64.nan) ∧
    (∀ query, Lexer.tokens E query ≠ [] →
      SearchQuery.rank E m (Lexer.tokens E query) d = F64.nan ∧
      ∀ r ∈ SearchQuery E m query, r.Path ≠ p) ∧
    (∀ query, Lexer.tokens E query = [] →
      SearchQuery.rank E m (Lexer.tokens E query) d = F64.ofInt 0 ∧
      { Path := p, Rank := F64.ofInt 0 } ∈ SearchQuery E m query) := by
  have hok : TFok d.TF d.Count := hm.inv.2 (p, d) ((GoMap.get?_eq_some_iff _ _ _).1 hd)
  refine ⟨computeTF_zero_count d hok hc, fun query ht => ?_, fun query ht => ?_⟩
  · have hr := SearchQuery.rank_zero_count E m d hok hc _ ht
    refine ⟨hr, fun r hr' hp => ?_⟩
    have := ((SearchQuery.mem_of_stored E hsort m query p d hd r).1 ⟨hr', hp⟩).1
    rw [hr] at this
    cases this
  · have hr : SearchQuery.rank E m (Lexer.tokens E query) d = F64.ofInt 0 := by
      rw [ht]; rfl
    refine ⟨hr, ?_⟩
    have := (SearchQuery.mem_of_stored E hsort m query p d hd
      { Path := p, Rank := F64.ofInt 0 }).2 ⟨by rw [hr]; rfl, by rw [hr]⟩
    exact this.1

/-- C10 amended, at the document added with empty content. -/
theorem zero_count_document_is_dropped_witness :
    SearchQuery.rank (asciiEnv id) emptyDocState (Lexer.tokens (asciiEnv id) ['a'])
        { TF := GoMap.empty, Count := 0, LastModified := 0 } = F64.nan ∧
      { Path := "e", Rank := F64.ofInt 0 } ∈ SearchQuery (asciiEnv id) emptyDocState [' '] :=
  ⟨((zero_count_document_is_dropped (asciiEnv id) (asciiEnv_sortsByRank id) emptyDocState
      (Reachable.add _ _ _ _ Reachable.init) "e"
      { TF := GoMap.empty, Count := 0, LastModified := 0 } rfl rfl).2.1 ['a'] (by decide)).1,
    ((zero_count_document_is_dropped (asciiEnv id) (asciiEnv_sortsByRank id) emptyDocState
      (Reachable.add _ _ _ _ Reachable.init) "e"
      { TF := GoMap.empty, Count := 0, LastModified := 0 } rfl rfl).2.2 [' '] (by decide)).2⟩

theorem Env.LogSign.of_ratio {E : Env} (hlog : E.LogSign) (x : ℚ) (hx : 1 ≤ x) :
    ∃ y : ℚ, 0 ≤ y ∧ E.Log10 (F64.fin x) = F64.fin y ∧ (0 < y ↔ 1 < x) := by
  rcases eq_or_lt_of_le hx with h | h
  · refine ⟨0, le_refl _, ?_, ?_⟩
    · rw [← h]; exact hlog.1
    · rw [← h]; simp
  · obtain ⟨y, hy, he⟩ := hlog.2 x h
    exact ⟨y, hy.le, he, ⟨fun _ => h, fun _ => hy⟩⟩

theorem computeIDF_value (E : Env) (hlog : E.LogSign) (term : String) (n : Int)
    (df : DocFreq) (hn : 1 ≤ n) (h0 : 0 ≤ df.get term) (hle : df.get term ≤ n) :
    ∃ y : ℚ, 0 ≤ y ∧ computeIDF E term n df = F64.fin y ∧
      (1 ≤ df.get term → (0 < y ↔ df.get term < n)) := by
  unfold computeIDF
  simp only [F64.ofInt, F64.beq]
  have hnq : (1 : ℚ) ≤ (n : ℚ) := by exact_mod_cast hn
  by_cases hz : df.get term = 0
  · have hx : (1 : ℚ) ≤ (n : ℚ) / ((1 : Int) : ℚ) := by simpa using hnq
    obtain ⟨y, hy, he, _⟩ := hlog.of_ratio _ hx
    refine ⟨y, hy, ?_, fun h1 => by omega⟩
    simp only [hz, Int.cast_zero, decide_True, if_true, F64.div]
    rw [if_neg (by norm_num)]
    exact he
  · have hpos : (0 : ℚ) < (df.get term : ℚ) := by
      have : 0 < df.get term := by omega
      exact_mod_cast this
    have hleq : (df.get term : ℚ) ≤ (n : ℚ) := by exact_mod_cast hle
    have hx : (1 : ℚ) ≤ (n : ℚ) / (df.get term : ℚ) := by
      rw [le_div_iff₀ hpos]; simpa using hleq
    obtain ⟨y, hy, he, hiff⟩ := hlog.of_ratio _ hx
    have hne : ¬ ((df.get term : ℚ) = ((0 : Int) : ℚ)) := by
      simpa using hpos.ne'
    refine ⟨y, hy, ?_, fun _ => ?_⟩
    · simp only [hne, decide_False, Bool.false_eq_true, if_false, F64.div]
      rw [if_neg hpos.ne']
      exact he
    · rw [hiff, lt_div_iff₀ hpos, one_mul]
      exact_mod_cast Iff.rfl

theorem Model.docsWith_le (m : Model) (t : String) : m.docsWith t ≤ m.Docs.len :=
  List.countP_le_length _

theorem Model.docsWith_pos (m : Model) (t : String) (p : String) (d : Doc)
    (hd : m.Docs.get? p = some d) (ht : 0 < d.TF.get t) : 0 < m.docsWith t := by
  unfold Model.docsWith
  rw [List.countP_pos_iff]
  exact ⟨(p, d), (GoMap.get?_eq_some_iff _ _ _).1 hd, by simpa using ht⟩

theorem SearchQuery.rank_single (E : Env) (hlog : E.LogSign) (m : Model) (hm : Inv m)
    (p : String) (d : Doc) (hd : m.Docs.get? p = some d) (hc : 0 < d.Count) (q : String) :
    ∃ r : ℚ, SearchQuery.rank E m [q] d = F64.fin r ∧ 0 ≤ r ∧
      (0 < r ↔ (0 < d.TF.get q ∧ m.DF.get q < (m.Docs.len : Int))) := by
  have hmem := (GoMap.get?_eq_some_iff _ _ _).1 hd
  have hok : TFok d.TF d.Count := hm.2 (p, d) hmem
  have htf : 0 ≤ d.TF.get q := hok.get_nonneg q
  have hdf : m.DF.get q = (m.docsWith q : Int) := by
    rw [GoMap.get_eq, hm.1 q]
    by_cases h0 : m.docsWith q = 0 <;> simp [h0]
  have hlen : 1 ≤ (m.Docs.len : Int) := by
    have : 0 < m.Docs.entries.length := List.length_pos_of_mem hmem
    simp only [GoMap.len]; omega
  have hle : m.DF.get q ≤ (m.Docs.len : Int) := by
    rw [hdf]; exact_mod_cast m.docsWith_le q
  have h0 : 0 ≤ m.DF.get q := by rw [hdf]; exact Int.natCast_nonneg _
  obtain ⟨y, hy, he, hiff⟩ := computeIDF_value E hlog q _ m.DF hlen h0 hle
  have hcq : (0 : ℚ) < (d.Count : ℚ) := by exact_mod_cast hc
  have htfq : (0 : ℚ) ≤ (d.TF.get q : ℚ) := by exact_mod_cast htf
  refine ⟨0 + (d.TF.get q : ℚ) / (d.Count : ℚ) * y, ?_, ?_, ?_⟩
  · unfold SearchQuery.rank
    simp only [List.foldl_cons, List.foldl_nil, he, computeTF, F64.ofInt, F64.div]
    rw [if_neg hcq.ne']
    simp [F64.mul, F64.add]
  · have : 0 ≤ (d.TF.get q : ℚ) / (d.Count : ℚ) := div_nonneg htfq hcq.le
    have := mul_nonneg this hy
    linarith
  · rw [zero_add]
    constructor
    · intro hr
      have htpos : 0 < d.TF.get q := by
        by_contra hn
        have h0' : d.TF.get q = 0 := by omega
        rw [h0'] at hr
        simp at hr
      have hypos : 0 < y := by
        by_contra hn
        have h0' : y = 0 := le_antisymm (not_lt.1 hn) hy
        rw [h0'] at hr
        simp at hr
      have h1 : 1 ≤ m.DF.get q := by
        rw [hdf]
        have := m.docsWith_pos q p d hd htpos
        omega
      exact ⟨htpos, (hiff h1).1 hypos⟩
    · rintro ⟨htpos, hlt⟩
      have h1 : 1 ≤ m.DF.get q := by
        rw [hdf]
        have := m.docsWith_pos q p d hd htpos
        omega
      have hypos : 0 < y := (hiff h1).2 hlt
      have : (0 : ℚ) < (d.TF.get q : ℚ) := by exact_mod_cast htpos
      exact mul_pos (div_pos this hcq) hypos

/-! ## Ranking for a single query term -/

theorem AddDocument.eq_ofTokens (E : Env) (m : Model) (p : String) (ts : Time)
    (content : List Char) :
    AddDocument E m p ts content = AddDocument.ofTokens m p ts (Lexer.tokens E content) := by
  unfold AddDocument AddDocument.ofTokens Lexer.tokens
  simp only [AddDocument.loop_eq_foldl]

theorem sorted_pair (l : List SearchResult) (a b : SearchResult)
    (hp : l.Perm [b, a]) (hs : l.Pairwise (fun x y => F64.gt y.Rank x.Rank = false))
    (hab : F64.gt a.Rank b.Rank = true) : l = [a, b] := by
  have hirr : ∀ x : F64, F64.gt x x = false := by
    intro x
    cases h : F64.gt x x
    · rfl
    · have := F64.gt_asymm x x h
      rw [h] at this; cases this
  refine List.Perm.eq_of_sorted ?_ hs ?_ (hp.trans (List.Perm.swap a b []))
  · intro x y hx hy hxy hyx
    have hx' : x = b ∨ x = a := by simpa using hp.mem_iff.1 hx
    have hy' : y = a ∨ y = b := by simpa using hy
    rcases hx' with rfl | rfl <;> rcases hy' with rfl | rfl
    · rw [hab] at hxy; cases hxy
    · rfl
    · rfl
    · rw [hab] at hyx; cases hyx
  · refine List.Pairwise.cons ?_ (List.pairwise_singleton _ _)
    intro y hy
    have : y = b := by simpa using hy
    rw [this]
    exact F64.gt_asymm _ _ hab

theorem SearchQuery.eq_sort (E : Env) (m : Model) (query : List Char) :
    SearchQuery E m query
      = E.SortSlice SearchQuery.less (SearchQuery.collect E m (Lexer.tokens E query)) := rfl

theorem SearchQuery.collect_noNaN (E : Env) (m : Model) (tokens : List String) :
    ∀ r ∈ SearchQuery.collect E m tokens, r.Rank.isNaN = false := by
  intro x hx
  obtain ⟨e, _, hn, rfl⟩ := (SearchQuery.mem_collect E m _ x).1 hx
  exact hn

/-- C9. Single-term ranking, with `math.Log10` zero at 1 and positive above 1 and
`sort.Slice` sorting.  In a state reached from `NewModel()`, for a query whose only token
is `q` and a stored document `d` with `Count > 0`, `SearchQuery` returns exactly one
result for the path of `d`; its rank is finite, at least 0, and positive exactly when `d`
contains `q` and `DF[q]` is below the number of stored documents.  With A = "the cat sat"
and B = "the dog sat" indexed, the query "cat" returns A, with a positive rank, before B,
with rank 0, and the query "sat" returns A and B with the same rank, 0. -/
theorem single_term_ranking (E : Env) (hlog : E.LogSign) (hsort : E.SortsByRank) :
    (∀ (m : Model), Reachable E m → ∀ (query : List Char) (q : String),
      Lexer.tokens E query = [q] → ∀ (p : String) (d : Doc), m.Docs.get? p = some d →
      0 < d.Count →
      ∃ r : ℚ,
        (∀ res : SearchResult, (res ∈ SearchQuery E m query ∧ res.Path = p) ↔
          res = { Path := p, Rank := F64.fin r }) ∧
        0 ≤ r ∧
        (0 < r ↔ (0 < d.TF.get q ∧ m.DF.get q < (m.Docs.len : Int)))) ∧
    (∀ (tA tB : Time) (A B cat sat : List Char),
      Lexer.tokens E A = ["the", "cat", "sat"] → Lexer.tokens E B = ["the", "dog", "sat"] →
      Lexer.tokens E cat = ["cat"] → Lexer.tokens E sat = ["sat"] →
      (∃ rA : ℚ, 0 < rA ∧
        SearchQuery E (AddDocument E (AddDocument E NewModel "A" tA A) "B" tB B) cat
          = [{ Path := "A", Rank := F64.fin rA }, { Path := "B", Rank := F64.fin 0 }]) ∧
      (SearchQuery E (AddDocument E (AddDocument E NewModel "A" tA A) "B" tB B) sat).Perm
        [{ Path := "A", Rank := F64.fin 0 }, { Path := "B", Rank := F64.fin 0 }]) := by
  constructor
  · intro m hm query q hq p d hd hc
    obtain ⟨r, hr, h0, hiff⟩ := SearchQuery.rank_single E hlog m hm.inv p d hd hc q
    refine ⟨r, fun res => ?_, h0, hiff⟩
    rw [SearchQuery.mem_of_stored E hsort m query p d hd res, hq, hr]
    simp [F64.isNaN]
  · intro tA tB A B cat sat hA hB hcat hsat
    have hm : Reachable E (AddDocument E (AddDocument E NewModel "A" tA A) "B" tB B) :=
      Reachable.add _ _ _ _ (Reachable.add _ _ _ _ Reachable.init)
    have hmeq : AddDocument E (AddDocument E NewModel "A" tA A) "B" tB B
        = AddDocument.ofTokens (AddDocument.ofTokens NewModel "A" tA ["the", "cat", "sat"])
            "B" tB ["the", "dog", "sat"] := by
      rw [AddDocument.eq_ofTokens, AddDocument.eq_ofTokens, hA, hB]
    generalize AddDocument E (AddDocument E NewModel "A" tA A) "B" tB B = m at hm hmeq ⊢
    have hentries : m.Docs.entries =
        [("B", { TF := ((GoMap.empty.set "the" 1).set "dog" 1).set "sat" 1, Count := 3,
                  LastModified := tB }),
         ("A", { TF := ((GoMap.empty.set "the" 1).set "cat" 1).set "sat" 1, Count := 3,
                  LastModified := tA })] := by
      rw [hmeq]; rfl
    have hgetA : m.Docs.get? "A" = some
        { TF := ((GoMap.empty.set "the" 1).set "cat" 1).set "sat" 1, Count := 3,
          LastModified := tA } := by
      rw [hmeq]; rfl
    have hgetB : m.Docs.get? "B" = some
        { TF := ((GoMap.empty.set "the" 1).set "dog" 1).set "sat" 1, Count := 3,
          LastModified := tB } := by
      rw [hmeq]; rfl
    have hlen : (m.Docs.len : Int) = 2 := by rw [hmeq]; rfl
    have hdfcat : m.DF.get "cat" = 1 := by rw [hmeq]; rfl
    have hdfsat : m.DF.get "sat" = 2 := by rw [hmeq]; rfl
    constructor
    · obtain ⟨rA, hrA, _, hiffA⟩ :=
        SearchQuery.rank_single E hlog m hm.inv "A" _ hgetA (show (0 : Int) < 3 by decide) "cat"
      obtain ⟨rB, hrB, hB0, hiffB⟩ :=
        SearchQuery.rank_single E hlog m hm.inv "B" _ hgetB (show (0 : Int) < 3 by decide) "cat"
      have hposA : 0 < rA := hiffA.2 ⟨show (0 : Int) < 1 by decide, by rw [hdfcat, hlen]; decide⟩
      have hzeroB : rB = 0 := by
        have : ¬ 0 < rB := fun h => absurd (hiffB.1 h).1 (show ¬ (0 : Int) < 0 by decide)
        exact le_antisymm (not_lt.1 this) hB0
      subst hzeroB
      have hcollect : SearchQuery.collect E m ["cat"]
          = [{ Path := "B", Rank := F64.fin 0 }, { Path := "A", Rank := F64.fin rA }] := by
        unfold SearchQuery.collect
        rw [hentries]
        simp [hrA, hrB, F64.isNaN]
      have hs := hsort _ (SearchQuery.collect_noNaN E m ["cat"])
      rw [hcollect] at hs
      refine ⟨rA, hposA, ?_⟩
      rw [SearchQuery.eq_sort, hcat]
      rw [hcollect]
      exact sorted_pair _ _ _ hs.1 hs.2 (by simpa [F64.gt] using hposA)
    · obtain ⟨rA, hrA, hA0, hiffA⟩ :=
        SearchQuery.rank_single E hlog m hm.inv "A" _ hgetA (show (0 : Int) < 3 by decide) "sat"
      obtain ⟨rB, hrB, hB0, hiffB⟩ :=
        SearchQuery.rank_single E hlog m hm.inv "B" _ hgetB (show (0 : Int) < 3 by decide) "sat"
      have hnot : ¬ m.DF.get "sat" < (m.Docs.len : Int) := by rw [hdfsat, hlen]; decide
      have hzeroA : rA = 0 :=
        le_antisymm (not_lt.1 (fun h => hnot (hiffA.1 h).2)) hA0
      have hzeroB : rB = 0 :=
        le_antisymm (not_lt.1 (fun h => hnot (hiffB.1 h).2)) hB0
      subst hzeroA hzeroB
      have hcollect : SearchQuery.collect E m ["sat"]
          = [{ Path := "B", Rank := F64.fin 0 }, { Path := "A", Rank := F64.fin 0 }] := by
        unfold SearchQuery.collect
        rw [hentries]
        simp [hrA, hrB, F64.isNaN]
      have hs := hsort _ (SearchQuery.collect_noNaN E m ["sat"])
      rw [hcollect] at hs
      rw [SearchQuery.eq_sort, hsat, hcollect]
      exact hs.1.trans (List.Perm.swap _ _ [])

/-- C9, at the two documents "the cat sat" and "the dog sat" and the query "cat". -/
theorem single_term_ranking_witness :
    ∃ rA : ℚ, 0 < rA ∧
      SearchQuery (asciiEnv id)
        (AddDocument (asciiEnv id)
          (AddDocument (asciiEnv id) NewModel "A" 1
            ['t', 'h', 'e', ' ', 'c', 'a', 't', ' ', 's', 'a', 't'])
          "B" 2 ['t', 'h', 'e', ' ', 'd', 'o', 'g', ' ', 's', 'a', 't'])
        ['c', 'a', 't']
        = [{ Path := "A", Rank := F64.fin rA }, { Path := "B", Rank := F64.fin 0 }] :=
  ((single_term_ranking (asciiEnv id) (asciiEnv_logSign id) (asciiEnv_sortsByRank id)).2 1 2
    ['t', 'h', 'e', ' ', 'c', 'a', 't', ' ', 's', 'a', 't']
    ['t', 'h', 'e', ' ', 'd', 'o', 'g', ' ', 's', 'a', 't']
    ['c', 'a', 't'] ['s', 'a', 't'] (by decide) (by decide) (by decide) (by decide)).1

/-! ## Sorted results -/

theorem F64.ge_of_not_gt (x y : F64) (hx : x.isNaN = false) (hy : y.isNaN = false)
    (h : F64.gt y x = false) : F64.ge x y = true := by
  cases x <;> cases y <;> simp [F64.gt, F64.ge, F64.isNaN] at h hx hy ⊢
  case inf.inf a b => cases a <;> cases b <;> simp at h ⊢
  case inf.fin a b => exact h
  case fin.inf a b => cases b <;> simp at h ⊢
  case fin.fin a b => exact h

theorem F64.eq_of_not_gt (x y : F64) (hx : x.isNaN = false) (hy : y.isNaN = false)
    (h : F64.gt y x = false) (h' : F64.gt x y = false) : x = y := by
  cases x <;> cases y <;> simp [F64.gt, F64.isNaN] at h h' hx hy ⊢
  case inf.inf a b => cases a <;> cases b <;> simp at h h' ⊢
  case inf.fin a b => rw [h'] at h; cases h
  case fin.inf a b => rw [h] at h'; cases h'
  case fin.fin a b => exact le_antisymm h' h

theorem SearchQuery.collect_paths (E : Env) (m : Model) (tokens : List String) :
    ((SearchQuery.collect E m tokens).map SearchResult.Path).Sublist m.Docs.keys := by
  unfold SearchQuery.collect GoMap.keys
  induction m.Docs.entries with
  | nil => exact List.Sublist.slnil
  | cons e es ih =>
    rw [List.filterMap_cons]
    by_cases hn : (SearchQuery.rank E m tokens e.2).isNaN = true
    · simp only [hn, Bool.not_true, Bool.false_eq_true, if_false, List.map_cons]
      exact List.Sublist.cons _ ih
    · have hn' : (SearchQuery.rank E m tokens e.2).isNaN = false := by simpa using hn
      simp only [hn', Bool.not_false, if_true, List.map_cons]
      exact List.Sublist.cons₂ _ ih

/-! ## Order, emptiness and determinism of the results -/

/-- C11. Ranked order, with `sort.Slice` sorting.  The list `SearchQuery` returns is in
non-increasing order of rank (every entry has a rank `>=` the rank of every entry after
it), no path occurs twice in it, and its entries are exactly the stored documents whose
rank is not NaN, each with its path and its rank. -/
theorem results_sorted_by_rank (E : Env) (hsort : E.SortsByRank) (m : Model)
    (query : List Char) :
    (SearchQuery E m query).Pairwise (fun a b => F64.ge a.Rank b.Rank = true) ∧
    ((SearchQuery E m query).map SearchResult.Path).Nodup ∧
    (∀ res : SearchResult, res ∈ SearchQuery E m query ↔
      ∃ (p : String) (d : Doc), m.Docs.get? p = some d ∧
        (SearchQuery.rank E m (Lexer.tokens E query) d).isNaN = false ∧
        res = { Path := p, Rank := SearchQuery.rank E m (Lexer.tokens E query) d }) := by
  have hs := hsort _ (SearchQuery.collect_noNaN E m (Lexer.tokens E query))
  rw [← SearchQuery.eq_sort] at hs
  have hnan : ∀ r ∈ SearchQuery E m query, r.Rank.isNaN = false := fun r hr =>
    SearchQuery.collect_noNaN E m _ r (hs.1.mem_iff.1 hr)
  refine ⟨?_, ?_, fun res => ?_⟩
  · refine List.Pairwise.imp_of_mem ?_ hs.2
    intro a b ha hb hab
    exact F64.ge_of_not_gt _ _ (hnan a ha) (hnan b hb) hab
  · rw [(hs.1.map SearchResult.Path).nodup_iff]
    exact m.Docs.nodup.sublist (SearchQuery.collect_paths E m _)
  · rw [SearchQuery.mem_iff E hsort, SearchQuery.mem_collect]
    constructor
    · rintro ⟨e, he, hn, rfl⟩
      exact ⟨e.1, e.2, (GoMap.get?_eq_some_iff _ _ _).2 he, hn, rfl⟩
    · rintro ⟨p, d, hd, hn, rfl⟩
      exact ⟨(p, d), (GoMap.get?_eq_some_iff _ _ _).1 hd, hn, rfl⟩

/-- C11, at the two documents "the cat sat" and "the dog sat" and the query "the cat". -/
theorem results_sorted_by_rank_witness :
    (SearchQuery (asciiEnv id)
      (AddDocument (asciiEnv id)
        (AddDocument (asciiEnv id) NewModel "A" 1
          ['t', 'h', 'e', ' ', 'c', 'a', 't', ' ', 's', 'a', 't'])
        "B" 2 ['t', 'h', 'e', ' ', 'd', 'o', 'g', ' ', 's', 'a', 't'])
      ['t', 'h', 'e', ' ', 'c', 'a', 't']).Pairwise
        (fun a b => F64.ge a.Rank b.Rank = true) :=
  (results_sorted_by_rank (asciiEnv id) (asciiEnv_sortsByRank id) _ _).1

/-- C12. Empty index, with `sort.Slice` sorting.  On a model without documents no rank is
computed (the loop over `Docs` has nothing to visit, so `len(m.Docs) = 0` is never
divided), and `SearchQuery` returns the empty list for every query. -/
theorem empty_index_returns_nothing (E : Env) (hsort : E.SortsByRank) (m : Model)
    (hm : m.Docs.len = 0) (query : List Char) :
    SearchQuery.collect E m (Lexer.tokens E query) = [] ∧ SearchQuery E m query = [] := by
  have hnil : m.Docs.entries = [] := List.length_eq_zero.1 hm
  have hc : SearchQuery.collect E m (Lexer.tokens E query) = [] := by
    unfold SearchQuery.collect
    rw [hnil]; rfl
  refine ⟨hc, ?_⟩
  have hs := hsort _ (SearchQuery.collect_noNaN E m (Lexer.tokens E query))
  rw [← SearchQuery.eq_sort, hc] at hs
  exact List.perm_nil.1 hs.1

/-- C12, at `NewModel()` and the query "cat". -/
theorem empty_index_returns_nothing_witness :
    SearchQuery (asciiEnv id) NewModel ['c', 'a', 't'] = [] :=
  (empty_index_returns_nothing (asciiEnv id) (asciiEnv_sortsByRank id) NewModel rfl
    ['c', 'a', 't']).2

theorem SearchQuery.rank_congr (E : Env) (m m' : Model)
    (hlen : m.Docs.len = m'.Docs.len) (hdf : m.DF.Same m'.DF) (tokens : List String)
    (d : Doc) : SearchQuery.rank E m tokens d = SearchQuery.rank E m' tokens d := by
  unfold SearchQuery.rank
  have hidf : ∀ token, computeIDF E token m.Docs.len m.DF
      = computeIDF E token m'.Docs.len m'.DF := by
    intro token
    unfold computeIDF
    rw [hlen, GoMap.get_eq, GoMap.get_eq, hdf token]
  simp only [hidf]

/-- C13. Ranking determinism, with `sort.Slice` sorting.  Two runs of `SearchQuery` on the
same index and query that visit the documents of `Docs` in different orders return the
same ranks, position by position. -/
theorem ranks_independent_of_visit_order (E : Env) (hsort : E.SortsByRank) (m m' : Model)
    (hdocs : m.Docs.entries.Perm m'.Docs.entries) (hdf : m.DF.Same m'.DF)
    (query : List Char) :
    (SearchQuery E m query).map SearchResult.Rank
      = (SearchQuery E m' query).map SearchResult.Rank := by
  have hs := hsort _ (SearchQuery.collect_noNaN E m (Lexer.tokens E query))
  have hs' := hsort _ (SearchQuery.collect_noNaN E m' (Lexer.tokens E query))
  rw [← SearchQuery.eq_sort] at hs hs'
  have hfun : (fun e : String × Doc =>
        if (!F64.isNaN (SearchQuery.rank E m (Lexer.tokens E query) e.2)) = true
        then some ({ Path := e.1, Rank := SearchQuery.rank E m (Lexer.tokens E query) e.2 }
          : SearchResult)
        else none)
      = (fun e : String × Doc =>
        if (!F64.isNaN (SearchQuery.rank E m' (Lexer.tokens E query) e.2)) = true
        then some ({ Path := e.1, Rank := SearchQuery.rank E m' (Lexer.tokens E query) e.2 }
          : SearchResult)
        else none) := by
    funext e
    rw [SearchQuery.rank_congr E m m' hdocs.length_eq hdf]
  have hcollect : (SearchQuery.collect E m (Lexer.tokens E query)).Perm
      (SearchQuery.collect E m' (Lexer.tokens E query)) := by
    unfold SearchQuery.collect
    simp only []
    rw [hfun]
    exact hdocs.filterMap _
  have hperm : (SearchQuery E m query).Perm (SearchQuery E m' query) :=
    (hs.1.trans hcollect).trans hs'.1.symm
  have hnan : ∀ r ∈ SearchQuery E m query, r.Rank.isNaN = false := fun r hr =>
    SearchQuery.collect_noNaN E m _ r (hs.1.mem_iff.1 hr)
  have hnan' : ∀ r ∈ SearchQuery E m' query, r.Rank.isNaN = false := fun r hr =>
    SearchQuery.collect_noNaN E m' _ r (hs'.1.mem_iff.1 hr)
  have hp : ((SearchQuery E m query).map SearchResult.Rank).Pairwise
      (fun x y => F64.gt y x = false) := List.pairwise_map.2 hs.2
  have hp' : ((SearchQuery E m' query).map SearchResult.Rank).Pairwise
      (fun x y => F64.gt y x = false) := List.pairwise_map.2 hs'.2
  refine List.Perm.eq_of_sorted ?_ hp hp' (hperm.map _)
  intro x y hx hy hxy hyx
  obtain ⟨a, ha, rfl⟩ := List.mem_map.1 hx
  obtain ⟨b, hb, rfl⟩ := List.mem_map.1 hy
  exact F64.eq_of_not_gt _ _ (hnan a ha) (hnan' b hb) hxy hyx

/-- C13, at two documents visited in the two possible orders. -/
theorem ranks_independent_of_visit_order_witness :
    (SearchQuery (asciiEnv id) twoDocState ['c', 'a', 't']).map SearchResult.Rank
      = (SearchQuery (asciiEnv id) twoDocStateReversed ['c', 'a', 't']).map
          SearchResult.Rank :=
  ranks_independent_of_visit_order (asciiEnv id) (asciiEnv_sortsByRank id) twoDocState
    twoDocStateReversed
    (show twoDocState.Docs.entries.Perm twoDocState.Docs.entries.reverse from
      (List.reverse_perm _).symm)
    (fun _ => rfl) ['c', 'a', 't']

/-! ## The keys of the document-frequency map -/

theorem Inv.mem_df_keys {m : Model} (h : Inv m) (t : String) :
    t ∈ m.DF.keys ↔ ∃ p d, m.Docs.get? p = some d ∧ 0 < d.TF.get t := by
  rw [GoMap.mem_keys_iff, h.1 t]
  constructor
  · rintro ⟨v, hv⟩
    by_cases h0 : m.docsWith t = 0
    · simp [h0] at hv
    · have hpos : 0 < m.docsWith t := Nat.pos_of_ne_zero h0
      unfold Model.docsWith at hpos
      rw [List.countP_pos_iff] at hpos
      obtain ⟨e, he, hp⟩ := hpos
      exact ⟨e.1, e.2, (GoMap.get?_eq_some_iff _ _ _).2 he, by simpa using hp⟩
  · rintro ⟨p, d, hd, hp⟩
    have := m.docsWith_pos t p d hd hp
    exact ⟨_, by rw [if_neg (by omega)]⟩

theorem Inv.df_value {m : Model} (h : Inv m) (t : String) (v : Int)
    (hv : m.DF.get? t = some v) : 1 ≤ v := by
  rw [h.1 t] at hv
  by_cases h0 : m.docsWith t = 0
  · simp [h0] at hv
  · simp only [h0, if_false, Option.some.injEq] at hv
    omega

theorem Inv.mem_terms {m : Model} (h : Inv m) (t : String) :
    t ∈ m.terms ↔ ∃ p d, m.Docs.get? p = some d ∧ 0 < d.TF.get t := by
  unfold Model.terms
  rw [List.mem_dedup, List.mem_flatMap]
  constructor
  · rintro ⟨e, he, ht⟩
    exact ⟨e.1, e.2, (GoMap.get?_eq_some_iff _ _ _).2 he, ((h.2 e he).pos_iff t).2 ht⟩
  · rintro ⟨p, d, hd, hp⟩
    have he := (GoMap.get?_eq_some_iff _ _ _).1 hd
    exact ⟨(p, d), he, ((h.2 (p, d) he).pos_iff t).1 hp⟩

/-- C14. Zero entries are pruned: in every state reached from `NewModel()` by
`AddDocument` and `RemoveDocument` calls every value of `DF` is at least 1, the keys of
`DF` are the terms that occur in a stored document, and the term count of `serveAPIStats`,
`len(DF)`, is the number of distinct terms occurring in at least one stored document. -/
theorem df_has_no_zero_entry (E : Env) (m : Model) (hm : Reachable E m) :
    (∀ t v, m.DF.get? t = some v → 1 ≤ v) ∧
    (∀ t, t ∈ m.DF.keys ↔ ∃ p d, m.Docs.get? p = some d ∧ 0 < d.TF.get t) ∧
    (serveAPIStats m).TermsCount = (m.terms.length : Int) := by
  refine ⟨hm.inv.df_value, hm.inv.mem_df_keys, ?_⟩
  have hperm : m.DF.keys.Perm m.terms := by
    refine (List.perm_ext_iff_of_nodup m.DF.nodup (List.nodup_dedup _)).2 ?_
    intro t
    exact (hm.inv.mem_df_keys t).trans (hm.inv.mem_terms t).symm
  show ((m.DF.entries.length : Nat) : Int) = _
  have := hperm.length_eq
  simp only [GoMap.keys, List.length_map] at this
  rw [this]

/-- C14, at the documents "the cat" and "the dog": three distinct terms. -/
theorem df_has_no_zero_entry_witness :
    (serveAPIStats (AddDocument (asciiEnv id)
      (AddDocument (asciiEnv id) NewModel "A" 0 ['t', 'h', 'e', ' ', 'c', 'a', 't'])
      "B" 1 ['t', 'h', 'e', ' ', 'd', 'o', 'g'])).TermsCount = 3 :=
  (df_has_no_zero_entry (asciiEnv id) _
    (Reachable.add _ _ _ _ (Reachable.add _ _ _ _ Reachable.init))).2.2

/-! ## Documents and their terms -/

theorem TFok.count_nonneg {tf : TermFreq} {count : Int} (h : TFok tf count) : 0 ≤ count := by
  have key : ∀ l : List (String × Int), (∀ e ∈ l, 0 < e.2) → 0 ≤ (l.map Prod.snd).sum := by
    intro l
    induction l with
    | nil => intro _; exact le_refl _
    | cons e es ih =>
      intro hpos
      have h1 := hpos e (List.mem_cons_self _ _)
      have h2 := ih (fun x hx => hpos x (List.mem_cons_of_mem _ hx))
      simp only [List.map_cons, List.sum_cons]
      omega
  rw [← h.1]
  exact key tf.entries h.2

theorem TFok.exists_term {tf : TermFreq} {count : Int} (h : TFok tf count) (hc : 0 < count) :
    ∃ t, 0 < tf.get t := by
  cases he : tf.entries with
  | nil =>
    have := h.1
    rw [he] at this
    simp at this
    omega
  | cons e es =>
    have hmem : e ∈ tf.entries := by rw [he]; exact List.mem_cons_self _ _
    refine ⟨e.1, ?_⟩
    rw [GoMap.get_eq, (GoMap.get?_eq_some_iff tf e.1 e.2).2 hmem]
    exact h.2 e hmem

/-- C15 fails on a document added with empty content: it is stored, its term-frequency
map has no term, and it has added nothing to the document frequencies. -/
theorem stored_document_without_term :
    ¬ (∀ p d, emptyDocState.Docs.get? p = some d →
        ∃ t, 0 < d.TF.get t ∧ 1 ≤ emptyDocState.DF.get t) := by
  intro h
  obtain ⟨t, ht, _⟩ := h "e" { TF := GoMap.empty, Count := 0, LastModified := 0 } rfl
  simp [GoMap.get, GoMap.get?, GoMap.empty] at ht

/-- C15, amended. In every state reached from `NewModel()` by `AddDocument` and
`RemoveDocument` calls, every term of the term-frequency map of a stored document has a
document frequency of at least 1, and a stored document with at least one token
(`Count > 0`) has such a term; a stored document with `Count = 0` has an empty
term-frequency map. -/
theorem stored_document_terms_counted (E : Env) (m : Model) (hm : Reachable E m)
    (p : String) (d : Doc) (hd : m.Docs.get? p = some d) :
    (∀ t, 0 < d.TF.get t → 1 ≤ m.DF.get t) ∧
    (0 < d.Count → ∃ t, 0 < d.TF.get t ∧ 1 ≤ m.DF.get t) ∧
    (d.Count = 0 → d.TF.entries = []) := by
  have hok : TFok d.TF d.Count := hm.inv.2 (p, d) ((GoMap.get?_eq_some_iff _ _ _).1 hd)
  have hdf : ∀ t, 0 < d.TF.get t → 1 ≤ m.DF.get t := by
    intro t ht
    have hpos := m.docsWith_pos t p d hd ht
    rw [GoMap.get_eq, hm.inv.1 t, if_neg (by omega)]
    simp only [Option.getD_some]
    omega
  refine ⟨hdf, fun hc => ?_, fun hc => ?_⟩
  · obtain ⟨t, ht⟩ := hok.exists_term hc
    exact ⟨t, ht, hdf t ht⟩
  · rw [hc] at hok
    exact hok.zero_count

/-- C15 amended, at the document "a b a". -/
theorem stored_document_terms_counted_witness :
    (AddDocument (asciiEnv id) NewModel "p" 7 ['a', ' ', 'b', ' ', 'a']).DF.get "a" ≥ 1 :=
  (stored_document_terms_counted (asciiEnv id)
    (AddDocument (asciiEnv id) NewModel "p" 7 ['a', ' ', 'b', ' ', 'a'])
    (Reachable.add _ _ _ _ Reachable.init) "p"
    { TF := (GoMap.empty.set "b" 1).set "a" 2, Count := 3, LastModified := 7 } rfl).1 "a"
    (show (0 : Int) < 2 by decide)

/-! ## The range of the ranks -/

theorem SearchQuery.rank_nonneg (E : Env) (hlog : E.LogSign) (m : Model) (hm : Inv m)
    (p : String) (d : Doc) (hd : m.Docs.get? p = some d) (hc : 0 < d.Count)
    (tokens : List String) :
    ∃ r : ℚ, 0 ≤ r ∧ SearchQuery.rank E m tokens d = F64.fin r := by
  have hmem := (GoMap.get?_eq_some_iff _ _ _).1 hd
  have hok : TFok d.TF d.Count := hm.2 (p, d) hmem
  have hlen : 1 ≤ (m.Docs.len : Int) := by
    have : 0 < m.Docs.entries.length := List.length_pos_of_mem hmem
    simp only [GoMap.len]; omega
  have hcq : (0 : ℚ) < (d.Count : ℚ) := by exact_mod_cast hc
  have hstep : ∀ (a : ℚ) (token : String), 0 ≤ a →
      ∃ r : ℚ, 0 ≤ r ∧
        F64.add (F64.fin a)
          (F64.mul (computeTF token d) (computeIDF E token m.Docs.len m.DF)) = F64.fin r := by
    intro a token ha
    have hdf : m.DF.get token = (m.docsWith token : Int) := by
      rw [GoMap.get_eq, hm.1 token]
      by_cases h0 : m.docsWith token = 0 <;> simp [h0]
    have hle : m.DF.get token ≤ (m.Docs.len : Int) := by
      rw [hdf]; exact_mod_cast m.docsWith_le token
    have h0 : 0 ≤ m.DF.get token := by rw [hdf]; exact Int.natCast_nonneg _
    obtain ⟨y, hy, he, _⟩ := computeIDF_value E hlog token _ m.DF hlen h0 hle
    have htfq : (0 : ℚ) ≤ (d.TF.get token : ℚ) := by exact_mod_cast hok.get_nonneg token
    refine ⟨a + (d.TF.get token : ℚ) / (d.Count : ℚ) * y, ?_, ?_⟩
    · have := mul_nonneg (div_nonneg htfq hcq.le) hy
      linarith
    · simp only [he, computeTF, F64.ofInt, F64.div]
      rw [if_neg hcq.ne']
      simp [F64.mul, F64.add]
  have hfold : ∀ (tokens : List String) (a : ℚ), 0 ≤ a →
      ∃ r : ℚ, 0 ≤ r ∧
        tokens.foldl
          (fun rank token =>
            F64.add rank (F64.mul (computeTF token d) (computeIDF E token m.Docs.len m.DF)))
          (F64.fin a) = F64.fin r := by
    intro tokens
    induction tokens with
    | nil => intro a ha; exact ⟨a, ha, rfl⟩
    | cons t ts ih =>
      intro a ha
      obtain ⟨r, hr, he⟩ := hstep a t ha
      rw [List.foldl_cons, he]
      exact ih r hr
  unfold SearchQuery.rank
  have := hfold tokens 0 (le_refl _)
  simpa [F64.ofInt] using this

/-- C18. Rank range, with `math.Log10` zero at 1 and positive above 1 and `sort.Slice`
sorting.  In every state reached from `NewModel()` by `AddDocument` and `RemoveDocument`
calls every value of `DF` lies between 1 and the number of stored documents, and for
every query every result `SearchQuery` returns has a finite rank that is at least 0. -/
theorem rank_is_finite_and_nonneg (E : Env) (hlog : E.LogSign) (hsort : E.SortsByRank)
    (m : Model) (hm : Reachable E m) (query : List Char) :
    (∀ t v, m.DF.get? t = some v → 1 ≤ v ∧ v ≤ (m.Docs.len : Int)) ∧
    (∀ res ∈ SearchQuery E m query, ∃ r : ℚ, 0 ≤ r ∧ res.Rank = F64.fin r) := by
  constructor
  · intro t v hv
    refine ⟨hm.inv.df_value t v hv, ?_⟩
    have hdf : m.DF.get t = v := by rw [GoMap.get_eq, hv]; rfl
    have : m.DF.get t = (m.docsWith t : Int) := by
      rw [GoMap.get_eq, hm.inv.1 t]
      by_cases h0 : m.docsWith t = 0 <;> simp [h0]
    rw [← hdf, this]
    exact_mod_cast m.docsWith_le t
  · intro res hres
    rw [SearchQuery.mem_iff E hsort, SearchQuery.mem_collect] at hres
    obtain ⟨e, he, hn, rfl⟩ := hres
    have hd : m.Docs.get? e.1 = some e.2 := (GoMap.get?_eq_some_iff _ _ _).2 he
    have hok : TFok e.2.TF e.2.Count := hm.inv.2 e he
    rcases lt_or_eq_of_le hok.count_nonneg with hc | hc
    · exact SearchQuery.rank_nonneg E hlog m hm.inv e.1 e.2 hd hc _
    · by_cases ht : Lexer.tokens E query = []
      · refine ⟨0, le_refl _, ?_⟩
        simp only [ht]
        simp [SearchQuery.rank, F64.ofInt]
      · rw [SearchQuery.rank_zero_count E m e.2 hok hc.symm _ ht] at hn
        cases hn

/-- C18, at the two documents "cat" and "dog" and the term "cat". -/
theorem rank_is_finite_and_nonneg_witness :
    (1 : Int) ≤ 1 ∧ (1 : Int) ≤ (twoDocState.Docs.len : Int) :=
  (rank_is_finite_and_nonneg (asciiEnv id) (asciiEnv_logSign id) (asciiEnv_sortsByRank id)
    twoDocState (Reachable.add _ _ _ _ (Reachable.add _ _ _ _ Reachable.init))
    ['c', 'a', 't']).1 "cat" 1 rfl

/-! ## Additions at distinct paths -/

theorem GoMap.Same.perm {V : Type} {a b : GoMap V} (h : a.Same b) :
    a.entries.Perm b.entries := by
  refine (List.perm_ext_iff_of_nodup (List.Nodup.of_map _ a.nodup)
    (List.Nodup.of_map _ b.nodup)).2 ?_
  intro e
  rw [← GoMap.get?_eq_some_iff a e.1 e.2, ← GoMap.get?_eq_some_iff b e.1 e.2, h e.1]

theorem Inv.df_same {m m' : Model} (h : Inv m) (h' : Inv m') (hdocs : m.Docs.Same m'.Docs) :
    m.DF.Same m'.DF := by
  intro t
  have : m.docsWith t = m'.docsWith t := hdocs.perm.countP_eq _
  rw [h.1 t, h'.1 t, this]

/-- C19. Additions at distinct paths commute: from a state reached from `NewModel()`,
`AddDocument(p1, t1, c1)` followed by `AddDocument(p2, t2, c2)` with `p1 != p2` leaves
the same `Docs` and the same `DF` as the two calls in the opposite order. -/
theorem add_document_commutes (E : Env) (s : Model) (hs : Reachable E s) (p1 p2 : String)
    (hp : p1 ≠ p2) (t1 t2 : Time) (c1 c2 : List Char) :
    (AddDocument E (AddDocument E s p1 t1 c1) p2 t2 c2).Docs.Same
        (AddDocument E (AddDocument E s p2 t2 c2) p1 t1 c1).Docs ∧
      (AddDocument E (AddDocument E s p1 t1 c1) p2 t2 c2).DF.Same
        (AddDocument E (AddDocument E s p2 t2 c2) p1 t1 c1).DF := by
  have hdocs : (AddDocument E (AddDocument E s p1 t1 c1) p2 t2 c2).Docs.Same
      (AddDocument E (AddDocument E s p2 t2 c2) p1 t1 c1).Docs := by
    intro k
    rw [AddDocument.docs_get? E (AddDocument E s p1 t1 c1) p2 t2 c2 k,
      AddDocument.docs_get? E (AddDocument E s p2 t2 c2) p1 t1 c1 k,
      AddDocument.docs_get? E s p1 t1 c1 k, AddDocument.docs_get? E s p2 t2 c2 k]
    by_cases h2 : k = p2
    · have h1 : ¬ k = p1 := fun h => hp (h.symm.trans h2)
      simp only [h2, if_true]
      rw [if_neg (fun h => hp h.symm)]
    · simp only [h2, if_false]
  refine ⟨hdocs, Inv.df_same ?_ ?_ hdocs⟩
  · exact (Reachable.add _ _ _ _ (Reachable.add _ _ _ _ hs)).inv
  · exact (Reachable.add _ _ _ _ (Reachable.add _ _ _ _ hs)).inv

/-- C19, at the documents "cat" and "dog" added to the empty index in both orders. -/
theorem add_document_commutes_witness :
    (AddDocument (asciiEnv id) (AddDocument (asciiEnv id) NewModel "A" 1 ['c', 'a', 't'])
        "B" 2 ['d', 'o', 'g']).DF.Same
      (AddDocument (asciiEnv id) (AddDocument (asciiEnv id) NewModel "B" 2 ['d', 'o', 'g'])
        "A" 1 ['c', 'a', 't']).DF :=
  (add_document_commutes (asciiEnv id) NewModel Reachable.init "A" "B" (by decide) 1 2
    ['c', 'a', 't'] ['d', 'o', 'g']).2

/-! ## The token sequence, on lists -/

theorem takeWhile_sep (p : Char → Bool) (l : List Char) (w : Char) (b : List Char)
    (hw : p w = false) :
    (l ++ w :: b).takeWhile p = l.takeWhile p ∧
      (l ++ w :: b).dropWhile p = l.dropWhile p ++ w :: b := by
  induction l with
  | nil => simp [List.takeWhile_cons, List.dropWhile_cons, hw]
  | cons a l ih =>
    by_cases ha : p a = true
    · simp [List.takeWhile_cons, List.dropWhile_cons, ha, ih.1, ih.2]
    · simp [List.takeWhile_cons, List.dropWhile_cons, ha]

theorem dropWhile_append_of_nil (p : Char → Bool) (a x : List Char)
    (h : a.dropWhile p = []) : (a ++ x).dropWhile p = x.dropWhile p := by
  induction a with
  | nil => rfl
  | cons c cs ih =>
    by_cases hc : p c = true
    · rw [List.dropWhile_cons, if_pos hc] at h
      rw [List.cons_append, List.dropWhile_cons, if_pos hc, ih h]
    · rw [List.dropWhile_cons, if_neg hc] at h
      cases h

theorem dropWhile_append_of_cons (p : Char → Bool) (a x : List Char) (c : Char)
    (cs : List Char) (h : a.dropWhile p = c :: cs) :
    (a ++ x).dropWhile p = c :: cs ++ x := by
  induction a with
  | nil => cases h
  | cons d ds ih =>
    by_cases hd : p d = true
    · rw [List.dropWhile_cons, if_pos hd] at h
      rw [List.cons_append, List.dropWhile_cons, if_pos hd, ih h]
    · rw [List.dropWhile_cons, if_neg hd] at h
      rw [List.cons_append, List.dropWhile_cons, if_neg hd, ← h, List.cons_append]

theorem Lexer.scan_suffix (E : Env) (rest : List Char) (token : String) (after : List Char)
    (h : Lexer.scan E rest = some (token, after)) : ∃ taken, rest = taken ++ after := by
  unfold Lexer.scan at h
  have hsp := List.takeWhile_append_dropWhile E.IsSpace rest
  cases hs : rest.dropWhile E.IsSpace with
  | nil => rw [hs] at h; cases h
  | cons c cs =>
    rw [hs] at h hsp
    by_cases hd : E.IsDigit c = true
    · simp only [hd, if_true, Option.some.injEq, Prod.mk.injEq] at h
      refine ⟨rest.takeWhile E.IsSpace ++ (c :: cs).takeWhile E.IsDigit, ?_⟩
      rw [← h.2, List.append_assoc, List.takeWhile_append_dropWhile, hsp]
    · by_cases hl : E.IsLetter c = true
      · simp only [hd, hl, if_true, if_false, Bool.false_eq_true, reduceIte,
          Option.some.injEq, Prod.mk.injEq] at h
        refine ⟨rest.takeWhile E.IsSpace
          ++ (c :: cs).takeWhile (fun r => E.IsLetter r || E.IsDigit r), ?_⟩
        rw [← h.2, List.append_assoc, List.takeWhile_append_dropWhile, hsp]
      · simp only [hd, hl, if_false, Bool.false_eq_true, reduceIte, Option.some.injEq,
          Prod.mk.injEq] at h
        refine ⟨rest.takeWhile E.IsSpace ++ [c], ?_⟩
        rw [← h.2, List.append_assoc, List.singleton_append, hsp]

theorem Lexer.loop_eq_scanAll (E : Env) (fuel : Nat) (content : List Char) (pos : Nat) :
    SearchQuery.loop E fuel { content := content, position := pos } []
      = Lexer.scanAll E fuel (content.drop pos) := by
  induction fuel generalizing pos with
  | zero => rfl
  | succ n ih =>
    unfold SearchQuery.loop Lexer.scanAll
    rw [Lexer.NextToken_eq_scan]
    simp only []
    cases hs : Lexer.scan E (content.drop pos) with
    | none => rfl
    | some r =>
      obtain ⟨token, after⟩ := r
      simp only []
      rw [SearchQuery.loop_append, ih]
      obtain ⟨taken, ht⟩ := Lexer.scan_suffix E _ _ _ hs
      have hc : content = (content.take pos ++ taken) ++ after := by
        rw [List.append_assoc, ← ht, List.take_append_drop]
      have hlen : content.length - after.length = (content.take pos ++ taken).length := by
        have := congrArg List.length hc
        rw [List.length_append] at this
        omega
      have hdrop : content.drop (content.length - after.length) = after := by
        rw [hlen]
        have := List.drop_left (content.take pos ++ taken) after
        rwa [← hc] at this
      rw [hdrop]
      rfl

theorem Lexer.tokens_eq_scanAll (E : Env) (content : List Char) :
    Lexer.tokens E content = Lexer.scanAll E (content.length + 1) content := by
  unfold Lexer.tokens NewLexer
  rw [Lexer.loop_eq_scanAll]
  rfl

theorem Lexer.scanAll_stable (E : Env) (fuel fuel' : Nat) (rest : List Char)
    (h : rest.length < fuel) (h' : rest.length < fuel') :
    Lexer.scanAll E fuel rest = Lexer.scanAll E fuel' rest := by
  induction fuel generalizing fuel' rest with
  | zero => omega
  | succ n ih =>
    cases fuel' with
    | zero => omega
    | succ k =>
      unfold Lexer.scanAll
      cases hs : Lexer.scan E rest with
      | none => rfl
      | some r =>
        obtain ⟨token, after⟩ := r
        have := Lexer.scan_length E _ _ _ hs
        simp only []
        rw [ih k after (by omega) (by omega)]

theorem Lexer.tokens_unfold (E : Env) (rest : List Char) :
    Lexer.tokens E rest =
      match Lexer.scan E rest with
      | none => []
      | some (token, after) => token :: Lexer.tokens E after := by
  rw [Lexer.tokens_eq_scanAll]
  unfold Lexer.scanAll
  cases hs : Lexer.scan E rest with
  | none => rfl
  | some r =>
    obtain ⟨token, after⟩ := r
    have := Lexer.scan_length E _ _ _ hs
    simp only []
    rw [Lexer.tokens_eq_scanAll, Lexer.scanAll_stable E rest.length (after.length + 1) after
      this (Nat.lt_succ_self _)]

/-! ## Whitespace between tokens -/

theorem Lexer.scan_sep (E : Env) (w : Char) (hw : E.IsSpace w = true)
    (hd : E.IsDigit w = false) (hl : E.IsLetter w = false) (a b : List Char) :
    Lexer.scan E (a ++ w :: b) =
      match Lexer.scan E a with
      | none => Lexer.scan E b
      | some (token, after) => some (token, after ++ w :: b) := by
  unfold Lexer.scan
  cases hs : a.dropWhile E.IsSpace with
  | nil =>
    rw [dropWhile_append_of_nil _ a _ hs, List.dropWhile_cons, if_pos hw]
  | cons c cs =>
    rw [dropWhile_append_of_cons _ a _ c cs hs]
    have hp : (fun r => E.IsLetter r || E.IsDigit r) w = false := by simp [hd, hl]
    have h1 := takeWhile_sep E.IsDigit (c :: cs) w b hd
    have h2 := takeWhile_sep (fun r => E.IsLetter r || E.IsDigit r) (c :: cs) w b hp
    simp only [List.cons_append] at h1 h2 ⊢
    by_cases hdc : E.IsDigit c = true
    · simp only [hdc, if_true, h1.1, h1.2]
    · by_cases hlc : E.IsLetter c = true
      · simp only [hdc, hlc, if_true, if_false, Bool.false_eq_true, reduceIte, h2.1, h2.2]
      · simp only [hdc, hlc, if_false, Bool.false_eq_true, reduceIte]

theorem Lexer.tokens_sep (E : Env) (w : Char) (hw : E.IsSpace w = true)
    (hd : E.IsDigit w = false) (hl : E.IsLetter w = false) (n : Nat) :
    ∀ a : List Char, a.length ≤ n → ∀ b : List Char,
      Lexer.tokens E (a ++ w :: b) = Lexer.tokens E a ++ Lexer.tokens E b := by
  induction n with
  | zero =>
    intro a ha b
    have : a = [] := List.length_eq_zero.1 (Nat.le_zero.1 ha)
    subst this
    rw [Lexer.tokens_unfold E ([] ++ w :: b), Lexer.scan_sep E w hw hd hl [] b,
      Lexer.tokens_unfold E []]
    have hnone : Lexer.scan E [] = none := rfl
    rw [hnone]
    simp only [List.nil_append]
    exact (Lexer.tokens_unfold E b).symm
  | succ n ih =>
    intro a ha b
    rw [Lexer.tokens_unfold E (a ++ w :: b), Lexer.scan_sep E w hw hd hl a b,
      Lexer.tokens_unfold E a]
    cases hs : Lexer.scan E a with
    | none =>
      simp only [List.nil_append]
      exact (Lexer.tokens_unfold E b).symm
    | some r =>
      obtain ⟨token, after⟩ := r
      have hlt := Lexer.scan_length E _ _ _ hs
      simp only []
      rw [ih after (by omega) b, List.cons_append]

theorem Lexer.tokens_of_spaces (E : Env) (ws : List Char)
    (h : ∀ c ∈ ws, E.IsSpace c = true) : Lexer.tokens E ws = [] := by
  rw [Lexer.tokens_unfold]
  have : ws.dropWhile E.IsSpace = [] := by
    rw [List.dropWhile_eq_nil_iff]; exact h
  unfold Lexer.scan
  rw [this]

/-- C20. Whitespace is a token boundary.  For a whitespace rune `w` (a rune that
`unicode.IsSpace` accepts is neither a digit nor a letter) and all rune sequences `a` and
`b`, the tokens of `a ++ [w] ++ b` are the tokens of `a` followed by the tokens of `b`;
so a whitespace rune in front or at the end changes no token, and an input of whitespace
alone yields no token. -/
theorem whitespace_separates_tokens (E : Env) (w : Char) (hw : E.IsSpace w = true)
    (hd : E.IsDigit w = false) (hl : E.IsLetter w = false) :
    (∀ a b : List Char,
      Lexer.tokens E (a ++ [w] ++ b) = Lexer.tokens E a ++ Lexer.tokens E b) ∧
    (∀ b : List Char, Lexer.tokens E (w :: b) = Lexer.tokens E b) ∧
    (∀ a : List Char, Lexer.tokens E (a ++ [w]) = Lexer.tokens E a) ∧
    (∀ ws : List Char, (∀ c ∈ ws, E.IsSpace c = true) → Lexer.tokens E ws = []) := by
  have hnil : Lexer.tokens E [] = [] := Lexer.tokens_of_spaces E [] (fun c hc => by cases hc)
  have key : ∀ a b : List Char,
      Lexer.tokens E (a ++ w :: b) = Lexer.tokens E a ++ Lexer.tokens E b :=
    fun a b => Lexer.tokens_sep E w hw hd hl a.length a (Nat.le_refl _) b
  refine ⟨fun a b => ?_, fun b => ?_, fun a => ?_, Lexer.tokens_of_spaces E⟩
  · rw [List.append_assoc, List.singleton_append]
    exact key a b
  · have := key [] b
    rwa [hnil, List.nil_append, List.nil_append] at this
  · have := key a []
    rwa [hnil, List.append_nil] at this

/-- C20, at `"3d"`, a space and `"cat"`. -/
theorem whitespace_separates_tokens_witness :
    Lexer.tokens (asciiEnv id) (['3', 'd'] ++ [' '] ++ ['c', 'a', 't'])
      = Lexer.tokens (asciiEnv id) ['3', 'd'] ++ Lexer.tokens (asciiEnv id) ['c', 'a', 't'] :=
  (whitespace_separates_tokens (asciiEnv id) ' ' (by decide) (by decide) (by decide)).1
    ['3', 'd'] ['c', 'a', 't']

/-! ## Tokenizing a term again -/

theorem dropWhile_head (p : Char → Bool) (l : List Char) (c : Char) (cs : List Char)
    (h : l.dropWhile p = c :: cs) : p c = false := by
  induction l with
  | nil => cases h
  | cons a l ih =>
    by_cases ha : p a = true
    · rw [List.dropWhile_cons, if_pos ha] at h
      exact ih h
    · rw [List.dropWhile_cons, if_neg ha] at h
      cases h
      simpa using ha

theorem takeWhile_cons_all (p : Char → Bool) (c : Char) (cs : List Char) (hc : p c = true) :
    ∃ run, (c :: cs).takeWhile p = c :: run ∧ ∀ x ∈ c :: run, p x = true := by
  refine ⟨cs.takeWhile p, by rw [List.takeWhile_cons, if_pos hc], ?_⟩
  intro x hx
  rcases List.mem_cons.1 hx with rfl | hx
  · exact hc
  · exact List.mem_takeWhile_imp hx

theorem Lexer.scan_term (E : Env) (rest : List Char) (token : String) (after : List Char)
    (h : Lexer.scan E rest = some (token, after)) : Lexer.Term E token := by
  unfold Lexer.scan at h
  cases hs : rest.dropWhile E.IsSpace with
  | nil => rw [hs] at h; cases h
  | cons c cs =>
    rw [hs] at h
    have hsp := dropWhile_head _ _ _ _ hs
    by_cases hd : E.IsDigit c = true
    · simp only [hd, if_true, Option.some.injEq, Prod.mk.injEq] at h
      obtain ⟨run, hrun, hall⟩ := takeWhile_cons_all E.IsDigit c cs hd
      rw [← h.1, hrun]
      exact Lexer.Term.digits c run hsp hall
    · have hd' : E.IsDigit c = false := by simpa using hd
      by_cases hl : E.IsLetter c = true
      · simp only [hd, hl, if_true, if_false, Bool.false_eq_true, reduceIte,
          Option.some.injEq, Prod.mk.injEq] at h
        obtain ⟨run, hrun, hall⟩ :=
          takeWhile_cons_all (fun r => E.IsLetter r || E.IsDigit r) c cs (by simp [hl])
        rw [← h.1, hrun]
        exact Lexer.Term.word c run hsp hd' hl hall
      · have hl' : E.IsLetter c = false := by simpa using hl
        simp only [hd, hl, if_false, Bool.false_eq_true, reduceIte, Option.some.injEq,
          Prod.mk.injEq] at h
        rw [← h.1]
        exact Lexer.Term.symbol c hsp hd' hl'

theorem Lexer.scanAll_term (E : Env) (fuel : Nat) (rest : List Char) (w : String)
    (h : w ∈ Lexer.scanAll E fuel rest) : Lexer.Term E w := by
  induction fuel generalizing rest with
  | zero => cases h
  | succ n ih =>
    unfold Lexer.scanAll at h
    cases hs : Lexer.scan E rest with
    | none => rw [hs] at h; cases h
    | some r =>
      obtain ⟨token, after⟩ := r
      rw [hs] at h
      rcases List.mem_cons.1 h with rfl | h
      · exact Lexer.scan_term E _ _ _ hs
      · exact ih after h

theorem Lexer.tokens_single (E : Env) (rest : List Char) (token : String)
    (h : Lexer.scan E rest = some (token, [])) : Lexer.tokens E rest = [token] := by
  rw [Lexer.tokens_unfold, h]
  simp only []
  rw [Lexer.tokens_of_spaces E [] (fun c hc => by cases hc)]

/-- C16 fails for a stemmer that is not idempotent: with the values of the Porter
algorithm, `"agreed"` gives the term `"agre"`, and `"agre"` gives `"agr"`. -/
theorem stemmed_term_is_stemmed_again :
    ¬ (∀ (content : List Char) (w : String),
        w ∈ Lexer.tokens (asciiEnv porterAgreed) content →
        Lexer.tokens (asciiEnv porterAgreed) w.data = [w]) := by
  intro h
  have h1 := h ['a', 'g', 'r', 'e', 'e', 'd'] "agre" (by decide)
  revert h1
  decide

/-- C16, amended. Every term the tokenizer emits is a digit run, the stem of a lowercased
word, or a single symbol character.  Tokenizing a digit run or a single symbol gives
exactly that term again; tokenizing a stemmed word `w` gives exactly `w` when `w` is a run
of letters and digits starting with a letter that `strings.ToLower` followed by the
stemmer leaves unchanged. -/
theorem terms_retokenize (E : Env) :
    (∀ (content : List Char) (w : String), w ∈ Lexer.tokens E content → Lexer.Term E w) ∧
    (∀ (d : Char) (ds : List Char), E.IsSpace d = false →
      (∀ c ∈ d :: ds, E.IsDigit c = true) →
      Lexer.tokens E (String.mk (d :: ds)).data = [String.mk (d :: ds)]) ∧
    (∀ c : Char, E.IsSpace c = false → E.IsDigit c = false → E.IsLetter c = false →
      Lexer.tokens E (String.mk [c]).data = [String.mk [c]]) ∧
    (∀ (c : Char) (cs : List Char), E.IsSpace c = false → E.IsDigit c = false →
      E.IsLetter c = true → (∀ x ∈ c :: cs, (E.IsLetter x || E.IsDigit x) = true) →
      E.StemString (E.ToLower (String.mk (c :: cs))) = String.mk (c :: cs) →
      Lexer.tokens E (String.mk (c :: cs)).data = [String.mk (c :: cs)]) := by
  refine ⟨?_, ?_, ?_, ?_⟩
  · intro content w hw
    rw [Lexer.tokens_eq_scanAll] at hw
    exact Lexer.scanAll_term E _ _ w hw
  · intro d ds hsp hall
    have h := Lexer.scan_digits E [] (d :: ds) [] d ds (fun c hc => by cases hc) rfl hsp hall
      (fun c cs hc => by cases hc)
    simp only [List.nil_append, List.append_nil] at h
    exact Lexer.tokens_single E _ _ h
  · intro c hsp hd hl
    apply Lexer.tokens_single
    show Lexer.scan E [c] = _
    unfold Lexer.scan
    simp [List.dropWhile_cons, hsp, hd, hl]
  · intro c cs hsp hd hl hall hfix
    have h := Lexer.scan_word E (c :: cs) [] c cs rfl hsp hd hl hall
      (fun x xs hx => by cases hx)
    simp only [List.append_nil] at h
    rw [hfix] at h
    exact Lexer.tokens_single E _ _ h

end Seroost
